import Mathlib

/-!
Verification of the dbstorage storage-engine prototype: a shallow embedding of
its heap-list tuple storage, B+-tree node operations, extendible-hash split
path, bitmap, tuple comparator and byte codecs, with theorems checking the
natural-language specification against the code.

Machine integers are modelled as `Nat`/`Int` with explicit `% 2^w` where
overflow matters; byte buffers are `List Nat` with every byte `< 256`;
fallible code returns `Option`, and panics (`todo!` / `unreachable!`) are
explicit constructors of outcome types.
-/

namespace DbStorage

/-! ## Byte-level helpers (big-endian u32, as used throughout the codecs) -/

/-- Big-endian byte serialisation of a `u32` (`u32::to_be_bytes`). -/
def u32beBytes (n : Nat) : List Nat :=
  [n / 2 ^ 24 % 256, n / 2 ^ 16 % 256, n / 2 ^ 8 % 256, n % 256]

/-- Big-endian `u32` deserialisation of 4 bytes (`u32::from_be_bytes`). -/
def u32fromBytes (l : List Nat) : Nat :=
  l.getD 0 0 * 2 ^ 24 + l.getD 1 0 * 2 ^ 16 + l.getD 2 0 * 2 ^ 8 + l.getD 3 0

theorem u32fromBytes_u32beBytes (n : Nat) (h : n < 2 ^ 32) :
    u32fromBytes (u32beBytes n) = n := by
  simp only [u32beBytes, u32fromBytes, List.getD]
  simp only [List.get?_eq_getElem?, List.getElem?_cons_zero, List.getElem?_cons_succ,
    Option.getD_some]
  omega

/-! ## `table/tuple.rs`: `TupleMeta`, `Slot` and the 9-byte slot codec -/

/-- `TupleMeta { deleted: bool }` from `table/tuple.rs`. -/
structure TupleMeta where
  deleted : Bool
deriving DecidableEq, Repr

/-- `impl From<&[u8]> for TupleMeta`: reads byte 0 and sets
`deleted = byte > 1` (the source literally compares with `> 1`). -/
def TupleMeta.fromBytes (value : List Nat) : TupleMeta :=
  { deleted := value.getD 0 0 > 1 }

/-- `Slot { offset: u32, len: u32, meta: TupleMeta }` from `table/tuple.rs`;
the `u32` fields are modelled as `Nat` (< 2^32 where it matters). -/
structure Slot where
  offset : Nat
  len : Nat
  meta : TupleMeta
deriving DecidableEq, Repr

/-- `impl From<&Slot> for TupleInfoBuf`: `offset (u32 BE) ‖ len (u32 BE) ‖
meta` where the meta byte is `deleted as u8`. -/
def Slot.toBytes (s : Slot) : List Nat :=
  u32beBytes s.offset ++ u32beBytes s.len ++ [if s.meta.deleted then 1 else 0]

/-- `impl From<&[u8]> for Slot`: bytes 0..4 = offset, 4..8 = len,
8.. = meta. -/
def Slot.fromBytes (buf : List Nat) : Slot :=
  { offset := u32fromBytes (buf.take 4)
    len := u32fromBytes ((buf.drop 4).take 4)
    meta := TupleMeta.fromBytes (buf.drop 8) }

/-- C2: the 9-byte slot codec does NOT round-trip the deleted flag.  At the
failing input `Slot { offset: 0, len: 0, meta: { deleted: true } }` the encoder
writes meta byte `1` (`deleted as u8`), but the decoder tests `byte > 1`, so
decoding the encoding yields `deleted = false`: the record comes back unequal
to the one encoded. -/
theorem slot_roundtrip_drops_deleted :
    Slot.fromBytes (Slot.toBytes ⟨0, 0, ⟨true⟩⟩) = ⟨0, 0, ⟨false⟩⟩ ∧
      (⟨0, 0, ⟨false⟩⟩ : Slot) ≠ ⟨0, 0, ⟨true⟩⟩ := by
  constructor
  · rfl
  · decide

/-! ## `pair.rs`: `Pair` and its key-only ordering -/

/-- `Pair<A, B> { a: A, b: B }` from `pair.rs`.  Derived equality
(`PartialEq`) compares both components, which structural `=` models. -/
structure Pair (A B : Type) where
  a : A
  b : B
deriving DecidableEq, Repr

/-- `impl Ord for Pair` from `pair.rs`: `self.a.cmp(&other.a)` — only the
first component is compared. -/
def Pair.cmp {A B : Type} [LinearOrder A] [LinearOrder B] (p q : Pair A B) :
    Ordering :=
  compare p.a q.a

/-- C10: `Pair`'s ordering compares only the first component: whenever
`p.a = q.a`, `cmp` returns `Equal` even when `p.b ≠ q.b`, while the derived
(structural) equality still distinguishes the two pairs. -/
theorem pair_cmp_ignores_second {A B : Type} [LinearOrder A] [LinearOrder B]
    (p q : Pair A B) (hab : p.a = q.a) (hb : p.b ≠ q.b) :
    Pair.cmp p q = Ordering.eq ∧ p ≠ q := by
  refine ⟨compare_eq_iff_eq.mpr hab, fun h => hb ?_⟩
  exact congrArg Pair.b h

/-- Witness for C10 at the concrete input `p = (0, 1)`, `q = (0, 2)`. -/
theorem pair_cmp_ignores_second_witness :
    Pair.cmp (⟨0, 1⟩ : Pair Int Int) ⟨0, 2⟩ = Ordering.eq ∧
      (⟨0, 1⟩ : Pair Int Int) ≠ ⟨0, 2⟩ :=
  pair_cmp_ignores_second ⟨0, 1⟩ ⟨0, 2⟩ rfl (by decide)

/-! ## `table/tuple.rs`: values, tuple layout and the `Comparand` comparator -/

/-- Signed big-endian decode of one byte as `i8`. -/
def i8fromByte (b : Nat) : Int :=
  if b < 2 ^ 7 then (b : Int) else (b : Int) - 2 ^ 8

/-- Signed big-endian decode of 4 bytes as `i32` (`i32::from_be_bytes`). -/
def i32fromBytes (l : List Nat) : Int :=
  let u := u32fromBytes l
  if u < 2 ^ 31 then (u : Int) else (u : Int) - 2 ^ 32

/-- Big-endian `u64` deserialisation of 8 bytes. -/
def u64fromBytes (l : List Nat) : Nat :=
  u32fromBytes (l.take 4) * 2 ^ 32 + u32fromBytes ((l.drop 4).take 4)

/-- Signed big-endian decode of 8 bytes as `i64` (`i64::from_be_bytes`). -/
def i64fromBytes (l : List Nat) : Int :=
  let u := u64fromBytes l
  if u < 2 ^ 63 then (u : Int) else (u : Int) - 2 ^ 64

/-- Big-endian `u16` deserialisation of 2 bytes (`u16::from_be_bytes`). -/
def u16fromBytes (l : List Nat) : Nat :=
  l.getD 0 0 * 2 ^ 8 + l.getD 1 0

/-- Big-endian byte serialisation of a `u16` (`u16::to_be_bytes`). -/
def u16beBytes (n : Nat) : List Nat :=
  [n / 2 ^ 8 % 256, n % 256]

/-- Signed big-endian encode of an `i8` (one byte, two's complement). -/
def i8beBytes (v : Int) : List Nat :=
  [(v % 2 ^ 8).toNat]

/-- Signed big-endian encode of an `i32` (two's complement, 4 bytes). -/
def i32beBytes (v : Int) : List Nat :=
  u32beBytes ((v % 2 ^ 32).toNat)

/-- Big-endian byte serialisation of a `u64`. -/
def u64beBytes (n : Nat) : List Nat :=
  u32beBytes (n / 2 ^ 32 % 2 ^ 32) ++ u32beBytes (n % 2 ^ 32)

/-- Signed big-endian encode of an `i64` (two's complement, 8 bytes). -/
def i64beBytes (v : Int) : List Nat :=
  u64beBytes ((v % 2 ^ 64).toNat)

/-- `catalog::Type`.  Modelled from the spec: `catalog.rs` is not among the
provided sources; §3 lists the value kinds TinyInt(i8), Bool, Int(i32),
BigInt(i64), Varchar(utf8). -/
inductive ColType
  | TinyInt
  | Bool
  | Int
  | BigInt
  | Varchar
deriving DecidableEq, Repr

/-- `Column::size()`.  Modelled from the spec: fixed-width columns occupy the
width of their value kind (i8 and bool one byte, i32 four, i64 eight); a
varchar's inline footprint is the `(u16 offset, u16 length)` pair (§3/§6). -/
def ColType.size : ColType → Nat
  | .TinyInt => 1
  | .Bool => 1
  | .Int => 4
  | .BigInt => 8
  | .Varchar => 4

/-- `catalog::Column { name, ty, offset }`.  Modelled from the spec (the
constructions in `table/tuple.rs`'s tests build columns from exactly these
three fields). -/
structure Column where
  name : String
  ty : ColType
  offset : Nat
deriving DecidableEq, Repr

/-- `table/tuple.rs`'s `Value` enum.  A varchar payload is kept as its UTF-8
bytes, whose lexicographic order coincides with Rust's `String` order. -/
inductive Value
  | TinyInt (v : Int)
  | Bool (v : Bool)
  | Int (v : Int)
  | BigInt (v : Int)
  | Varchar (s : List Nat)
deriving DecidableEq, Repr

/-- Discriminant rank of a `Value`, mirroring the declaration order that
Rust's derived `Ord` compares first. -/
def Value.rank : Value → Nat
  | .TinyInt _ => 0
  | .Bool _ => 1
  | .Int _ => 2
  | .BigInt _ => 3
  | .Varchar _ => 4

/-- Rust `bool` ordering: `false < true`. -/
def boolCmp (a b : Bool) : Ordering :=
  compare a.toNat b.toNat

/-- Lexicographic comparison of byte strings (Rust's `[u8]`/`str` order). -/
def bytesCmp : List Nat → List Nat → Ordering
  | [], [] => .eq
  | [], _ :: _ => .lt
  | _ :: _, [] => .gt
  | x :: xs, y :: ys =>
    match compare x y with
    | .eq => bytesCmp xs ys
    | o => o

/-- Rust's derived `Ord` on `Value`: discriminant order first, then the
payloads with their own orders. -/
def Value.cmp : Value → Value → Ordering
  | .TinyInt a, .TinyInt b => compare a b
  | .Bool a, .Bool b => boolCmp a b
  | .Int a, .Int b => compare a b
  | .BigInt a, .BigInt b => compare a b
  | .Varchar a, .Varchar b => bytesCmp a b
  | a, b => compare a.rank b.rank

/-- Slice `data[off..off+sz]` (shorter when the data runs out, where the
source would panic on its bounds assert). -/
def sliceBytes (data : List Nat) (off sz : Nat) : List Nat :=
  (data.drop off).take sz

/-- `Value::from(column, data)` from `table/tuple.rs`: fixed-width columns
decode big-endian at the declared offset (`Bool` via `u8 > 0`); a varchar
reads its `(u16 offset, u16 size)` header at the declared offset and takes
the payload slice from there. -/
def Value.fromColumn (column : Column) (data : List Nat) : Value :=
  match column.ty with
  | .TinyInt => .TinyInt (i8fromByte ((sliceBytes data column.offset 1).getD 0 0))
  | .Bool => .Bool ((sliceBytes data column.offset 1).getD 0 0 > 0)
  | .Int => .Int (i32fromBytes (sliceBytes data column.offset 4))
  | .BigInt => .BigInt (i64fromBytes (sliceBytes data column.offset 8))
  | .Varchar =>
    let off := u16fromBytes (sliceBytes data column.offset 2)
    let size := u16fromBytes (sliceBytes data (column.offset + 2) 2)
    .Varchar (sliceBytes data off size)

/-- `Comparand::cmp` from `table/tuple.rs`: walk the schema's columns in
order, decode both tuples' values, return the first strict comparison,
`Equal` if every column compares equal.  A tuple is represented by its
`data` bytes (the only field `get_value` reads). -/
def comparandCmp (schema : List Column) (a b : List Nat) : Ordering :=
  match schema with
  | [] => .eq
  | col :: rest =>
    match Value.cmp (Value.fromColumn col a) (Value.fromColumn col b) with
    | .lt => .lt
    | .gt => .gt
    | .eq => comparandCmp rest a b

/-- The spec's wording (§8 "Tuple comparator"): the lexicographic
column-by-column comparison of the decoded column values — combine the
per-column comparisons left to right with `Ordering.then`. -/
def lexColumnCmp (schema : List Column) (a b : List Nat) : Ordering :=
  (schema.map fun col =>
      Value.cmp (Value.fromColumn col a) (Value.fromColumn col b)).foldr
    (fun o acc => o.then acc) .eq

/-- One pending variable-length column inside `TupleBuilder`. -/
structure Variable where
  data : List Nat
  offset_offset : Nat

/-- `TupleBuilder` from `table/tuple.rs` (its `variable` field is renamed
`vars`, `variable` being a Lean keyword). -/
structure TupleBuilder where
  data : List Nat
  vars : List Variable

/-- `TupleBuilder::new()`. -/
def TupleBuilder.new : TupleBuilder :=
  { data := [], vars := [] }

/-- Overwrite `data[pos..pos+2]` with the two given bytes. -/
def putU16At (data : List Nat) (pos : Nat) (bytes : List Nat) : List Nat :=
  data.take pos ++ bytes ++ data.drop (pos + 2)

/-- `TupleBuilder::add`: fixed-width values append their big-endian bytes
(bool as 0/1); a varchar appends a 4-byte placeholder whose second half is
the payload length and records the payload for `build`. -/
def TupleBuilder.add (b : TupleBuilder) (v : Value) : TupleBuilder :=
  match v with
  | .TinyInt v => { b with data := b.data ++ i8beBytes v }
  | .Bool v => { b with data := b.data ++ [if v then 1 else 0] }
  | .Int v => { b with data := b.data ++ i32beBytes v }
  | .BigInt v => { b with data := b.data ++ i64beBytes v }
  | .Varchar s =>
    let offset := b.data.length
    let data := putU16At (b.data ++ [0, 0, 0, 0]) (offset + 2)
      (u16beBytes (s.length % 2 ^ 16))
    { data := data, vars := b.vars ++ [⟨s, offset⟩] }

/-- `TupleBuilder::build`: for each pending varchar, patch its recorded
header position with the current end offset and append the payload. -/
def TupleBuilder.build (b : TupleBuilder) : List Nat :=
  (b.vars.foldl
    (fun data v =>
      putU16At data v.offset_offset (u16beBytes (data.length % 2 ^ 16)) ++
        v.data)
    b.data)

/-- The schema of spec §8 scenario 6: `(Int, Bool, BigInt)` at offsets
0, 4, 5. -/
def schemaIntBoolBig : List Column :=
  [⟨"col_a", .Int, 0⟩, ⟨"col_b", .Bool, 4⟩, ⟨"col_c", .BigInt, 5⟩]

/-- The tuple `(4, false, 100)` built by `TupleBuilder`. -/
def tupleFourFalse : List Nat :=
  (TupleBuilder.new.add (.Int 4) |>.add (.Bool false)
    |>.add (.BigInt 100)).build

/-- The tuple `(4, true, 100)` built by `TupleBuilder`. -/
def tupleFourTrue : List Nat :=
  (TupleBuilder.new.add (.Int 4) |>.add (.Bool true)
    |>.add (.BigInt 100)).build

/-- C8: `Comparand::cmp` equals the lexicographic column-by-column
comparison of the decoded column values, for every schema and pair of
tuples; and on schema `(Int, Bool, BigInt)` the tuple `(4, false, 100)`
compares `Less` against `(4, true, 100)` while the reverse comparison is
`Greater`. -/
theorem comparand_cmp_is_lexicographic :
    (∀ (schema : List Column) (a b : List Nat),
        comparandCmp schema a b = lexColumnCmp schema a b) ∧
      comparandCmp schemaIntBoolBig tupleFourFalse tupleFourTrue =
        Ordering.lt ∧
      comparandCmp schemaIntBoolBig tupleFourTrue tupleFourFalse =
        Ordering.gt := by
  refine ⟨fun schema a b => ?_, by decide, by decide⟩
  induction schema with
  | nil => rfl
  | cons col rest ih =>
    simp only [comparandCmp, lexColumnCmp, List.map_cons, List.foldr_cons]
    cases Value.cmp (Value.fromColumn col a) (Value.fromColumn col b) <;>
      simp [Ordering.then, lexColumnCmp, ih]

/-! ## `bitmap.rs`: `BitMap` -/

/-- `BitMap<SIZE> { inner: [u8; SIZE], occupied: usize }` from `bitmap.rs`.
The byte array is a function from byte index to byte value; `SIZE` only
bounds the indices and appears in `is_full`. -/
structure BitMap where
  inner : Nat → Nat
  occupied : Nat

/-- `BitMap::new()`: all-zero bytes, `occupied = 0`. -/
def BitMap.new : BitMap :=
  { inner := fun _ => 0, occupied := 0 }

/-- `BitMap::check(i)`: `(1 << (i % 8)) & inner[i / 8] > 0`. -/
def BitMap.check (m : BitMap) (i : Nat) : Bool :=
  (1 <<< (i % 8)) &&& m.inner (i / 8) > 0

/-- Pointwise update of the byte array. -/
def updByte (f : Nat → Nat) (idx b : Nat) : Nat → Nat :=
  fun k => if k = idx then b else f k

/-- `BitMap::set(i, val)`: `index = i >> 3`, `bit_index = 1 << (i & 7)`;
or the bit in (bumping `occupied` when it was clear), or mask it out with
the byte-complement `!bit_index = bit_index ^ 0xff` (decrementing `occupied`
when the bit was set and `occupied > 0`). -/
def BitMap.set (m : BitMap) (i : Nat) (val : Bool) : BitMap :=
  let index := i >>> 3
  let bit_index := 1 <<< (i &&& 7)
  if val then
    { inner := updByte m.inner index (m.inner index ||| bit_index)
      occupied := if ¬ m.check i then m.occupied + 1 else m.occupied }
  else
    { inner := updByte m.inner index (m.inner index &&& (bit_index ^^^ 255))
      occupied :=
        if m.check i ∧ m.occupied > 0 then m.occupied - 1 else m.occupied }

/-- `BitMap::is_empty()`: `occupied == 0`. -/
def BitMap.is_empty (m : BitMap) : Bool :=
  m.occupied == 0

/-- `BitMap::is_full()`: `occupied == SIZE * 8`. -/
def BitMap.is_full (SIZE : Nat) (m : BitMap) : Bool :=
  m.occupied == SIZE * 8

/-- Apply a sequence of `set` calls. -/
def BitMap.applyOps (m : BitMap) (ops : List (Nat × Bool)) : BitMap :=
  ops.foldl (fun acc p => acc.set p.1 p.2) m

/-- The last value `set` at index `i` in a sequence of ops (`false` if the
index was never set): last write wins. -/
def lastSetVal (ops : List (Nat × Bool)) (i : Nat) : Bool :=
  ops.foldl (fun acc p => if p.1 = i then p.2 else acc) false

theorem BitMap.check_eq_testBit (m : BitMap) (i : Nat) :
    m.check i = (m.inner (i / 8)).testBit (i % 8) := by
  unfold BitMap.check
  rw [Nat.one_shiftLeft, Nat.and_comm, Nat.and_two_pow]
  cases h : (m.inner (i / 8)).testBit (i % 8) <;> simp [h]

theorem updByte_same (f : Nat → Nat) (idx b : Nat) :
    updByte f idx b idx = b := by
  simp [updByte]

theorem updByte_other (f : Nat → Nat) (idx b k : Nat) (h : k ≠ idx) :
    updByte f idx b k = f k := by
  simp [updByte, h]

theorem BitMap.inner_set (m : BitMap) (j : Nat) (v : Bool) :
    (m.set j v).inner =
      if v then updByte m.inner (j / 8) (m.inner (j / 8) ||| 2 ^ (j % 8))
      else
        updByte m.inner (j / 8)
          (m.inner (j / 8) &&& (2 ^ (j % 8) ^^^ 255)) := by
  have hdiv : j >>> 3 = j / 8 := by
    rw [Nat.shiftRight_eq_div_pow]
  have hmod : j &&& 7 = j % 8 := by
    have h7 : (7 : Nat) = 2 ^ 3 - 1 := by norm_num
    rw [h7, Nat.and_pow_two_sub_one_eq_mod]
  cases v <;> simp [BitMap.set, hdiv, hmod, Nat.one_shiftLeft]

theorem BitMap.occupied_set_true (m : BitMap) (j : Nat) :
    (m.set j true).occupied =
      if m.check j then m.occupied else m.occupied + 1 := by
  by_cases h : m.check j <;> simp [BitMap.set, h]

theorem BitMap.occupied_set_false (m : BitMap) (j : Nat) :
    (m.set j false).occupied =
      if m.check j ∧ 0 < m.occupied then m.occupied - 1
      else m.occupied := by
  by_cases h : m.check j <;> simp [BitMap.set, h]

theorem testBit_byteMask (k : Nat) (h : k < 8) :
    Nat.testBit 255 k = true := by
  revert h
  revert k
  decide

theorem BitMap.check_set (m : BitMap) (i j : Nat) (v : Bool) :
    (m.set j v).check i = if i = j then v else m.check i := by
  have hlt : i % 8 < 8 := Nat.mod_lt _ (by norm_num)
  rw [BitMap.check_eq_testBit, BitMap.inner_set]
  by_cases hb : i / 8 = j / 8
  · rw [hb]
    by_cases hbit : i % 8 = j % 8
    · have hijeq : i = j := by omega
      subst hijeq
      cases v
      · rw [if_neg (by simp), updByte_same, if_pos rfl]
        simp [Nat.testBit_and, Nat.testBit_xor, Nat.testBit_two_pow,
          testBit_byteMask _ hlt]
      · rw [if_pos rfl, updByte_same, if_pos rfl]
        simp [Nat.testBit_or, Nat.testBit_two_pow]
    · have hne : i ≠ j := by omega
      cases v
      · rw [if_neg (by simp), updByte_same, if_neg hne,
          BitMap.check_eq_testBit, hb]
        simp [Nat.testBit_and, Nat.testBit_xor,
          Nat.testBit_two_pow_of_ne (Ne.symm hbit),
          testBit_byteMask _ hlt]
      · rw [if_pos rfl, updByte_same, if_neg hne,
          BitMap.check_eq_testBit, hb]
        simp [Nat.testBit_or, Nat.testBit_two_pow_of_ne (Ne.symm hbit)]
  · have hne : i ≠ j := by omega
    cases v
    · rw [if_neg (by simp), updByte_other _ _ _ _ hb, if_neg hne,
        BitMap.check_eq_testBit]
    · rw [if_pos rfl, updByte_other _ _ _ _ hb, if_neg hne,
        BitMap.check_eq_testBit]

/-- The number of set bits among the first `8 * SIZE` bit indices. -/
def setBitCard (SIZE : Nat) (m : BitMap) : Nat :=
  ((Finset.range (8 * SIZE)).filter fun k => m.check k = true).card

theorem BitMap.occupied_set (SIZE : Nat) (m : BitMap)
    (hInv : m.occupied = setBitCard SIZE m) (i : Nat) (hi : i < 8 * SIZE)
    (v : Bool) : (m.set i v).occupied = setBitCard SIZE (m.set i v) := by
  unfold setBitCard at hInv ⊢
  cases v
  · have hfilter :
        ((Finset.range (8 * SIZE)).filter fun k =>
          (m.set i false).check k = true) =
          ((Finset.range (8 * SIZE)).filter fun k => m.check k = true).erase
            i := by
      ext k
      by_cases hk : k = i <;>
        simp [BitMap.check_set, hk, Finset.mem_erase]
    rw [hfilter, BitMap.occupied_set_false]
    by_cases hc : m.check i = true
    · have hmem : i ∈ (Finset.range (8 * SIZE)).filter
          fun k => m.check k = true := by
        simp [hi, hc]
      have hpos : 0 < m.occupied := by
        rw [hInv]
        exact Finset.card_pos.mpr ⟨i, hmem⟩
      rw [if_pos ⟨hc, hpos⟩, Finset.card_erase_of_mem hmem, hInv]
    · have hnmem : i ∉ (Finset.range (8 * SIZE)).filter
          fun k => m.check k = true := by
        simp [hc]
      rw [if_neg (by simp [hc]), Finset.erase_eq_of_not_mem hnmem, hInv]
  · have hfilter :
        ((Finset.range (8 * SIZE)).filter fun k =>
          (m.set i true).check k = true) =
          insert i
            ((Finset.range (8 * SIZE)).filter fun k =>
              m.check k = true) := by
      ext k
      by_cases hk : k = i <;>
        simp [BitMap.check_set, hk, hi, Finset.mem_insert]
    rw [hfilter, BitMap.occupied_set_true]
    by_cases hc : m.check i = true
    · have hmem : i ∈ (Finset.range (8 * SIZE)).filter
          fun k => m.check k = true := by
        simp [hi, hc]
      rw [if_pos hc, Finset.insert_eq_self.mpr hmem, hInv]
    · have hnmem : i ∉ (Finset.range (8 * SIZE)).filter
          fun k => m.check k = true := by
        simp [hc]
      rw [if_neg (by simp [hc]), Finset.card_insert_of_not_mem hnmem, hInv]

theorem BitMap.occupied_applyOps (SIZE : Nat) (ops : List (Nat × Bool))
    (m : BitMap) (hInv : m.occupied = setBitCard SIZE m)
    (hops : ∀ p ∈ ops, p.1 < 8 * SIZE) :
    (m.applyOps ops).occupied = setBitCard SIZE (m.applyOps ops) := by
  induction ops generalizing m with
  | nil => exact hInv
  | cons p rest ih =>
    have hp := hops p (List.mem_cons_self p rest)
    exact ih (m.set p.1 p.2) (m.occupied_set SIZE hInv p.1 hp p.2)
      (fun q hq => hops q (List.mem_cons_of_mem p hq))

theorem BitMap.check_applyOps (ops : List (Nat × Bool)) (m : BitMap)
    (i : Nat) :
    (m.applyOps ops).check i =
      ops.foldl (fun acc p => if p.1 = i then p.2 else acc) (m.check i) := by
  induction ops generalizing m with
  | nil => rfl
  | cons p rest ih =>
    simp only [BitMap.applyOps, List.foldl_cons] at ih ⊢
    rw [ih, BitMap.check_set]
    by_cases h : p.1 = i
    · simp [h]
    · have h2 : ¬ i = p.1 := fun hh => h hh.symm
      simp [h, h2]

theorem BitMap.check_new (i : Nat) : BitMap.new.check i = false := by
  simp [BitMap.check_eq_testBit, BitMap.new]

theorem BitMap.new_inv (SIZE : Nat) :
    BitMap.new.occupied = setBitCard SIZE BitMap.new := by
  have h0 : BitMap.new.occupied = 0 := rfl
  rw [h0]
  simp [setBitCard, BitMap.check_new]

/-- C9: for every sequence of `set(i, b)` calls with indices `i < 8 * SIZE`
starting from a fresh bitmap: `occupied` equals the number of set bits,
`check i` returns the last value set at `i` (false if never set),
`is_empty` holds iff no bit is set, and `is_full` holds iff all
`8 * SIZE` bits are set. -/
theorem bitmap_set_invariants (SIZE : Nat) (ops : List (Nat × Bool))
    (hops : ∀ p ∈ ops, p.1 < 8 * SIZE) :
    (BitMap.new.applyOps ops).occupied =
        setBitCard SIZE (BitMap.new.applyOps ops) ∧
      (∀ i, (BitMap.new.applyOps ops).check i = lastSetVal ops i) ∧
      ((BitMap.new.applyOps ops).is_empty = true ↔
        ∀ i < 8 * SIZE, (BitMap.new.applyOps ops).check i = false) ∧
      ((BitMap.new.applyOps ops).is_full SIZE = true ↔
        ∀ i < 8 * SIZE, (BitMap.new.applyOps ops).check i = true) := by
  have hInv := BitMap.occupied_applyOps SIZE ops BitMap.new
    (BitMap.new_inv SIZE) hops
  have hcheck : ∀ i,
      (BitMap.new.applyOps ops).check i = lastSetVal ops i := by
    intro i
    rw [BitMap.check_applyOps, BitMap.check_new]
    rfl
  refine ⟨hInv, hcheck, ?_, ?_⟩
  · unfold BitMap.is_empty
    rw [beq_iff_eq, hInv]
    unfold setBitCard
    rw [Finset.card_eq_zero, Finset.filter_eq_empty_iff]
    constructor
    · intro h i hi
      by_contra hc
      exact h (Finset.mem_range.mpr hi) (by simpa using hc)
    · intro h k hk
      simp [h k (Finset.mem_range.mp hk)]
  · unfold BitMap.is_full
    rw [beq_iff_eq, hInv]
    unfold setBitCard
    constructor
    · intro h i hi
      have hsub : ((Finset.range (8 * SIZE)).filter fun k =>
          (BitMap.new.applyOps ops).check k = true) ⊆
          Finset.range (8 * SIZE) := Finset.filter_subset _ _
      have hcard : (Finset.range (8 * SIZE)).card ≤
          ((Finset.range (8 * SIZE)).filter fun k =>
            (BitMap.new.applyOps ops).check k = true).card := by
        rw [h, Finset.card_range]
        omega
      have heq := Finset.eq_of_subset_of_card_le hsub hcard
      have : i ∈ (Finset.range (8 * SIZE)).filter fun k =>
          (BitMap.new.applyOps ops).check k = true := by
        rw [heq]
        exact Finset.mem_range.mpr hi
      exact (Finset.mem_filter.mp this).2
    · intro h
      rw [Finset.filter_true_of_mem fun k hk =>
        h k (Finset.mem_range.mp hk)]
      rw [Finset.card_range]
      omega

/-- Witness for C9 at `SIZE = 1` with ops
`[(0, true), (3, true), (3, false)]`. -/
theorem bitmap_set_invariants_witness :
    (BitMap.new.applyOps [(0, true), (3, true), (3, false)]).occupied =
        setBitCard 1 (BitMap.new.applyOps [(0, true), (3, true), (3, false)]) ∧
      (∀ i, (BitMap.new.applyOps [(0, true), (3, true), (3, false)]).check i =
        lastSetVal [(0, true), (3, true), (3, false)] i) ∧
      ((BitMap.new.applyOps [(0, true), (3, true), (3, false)]).is_empty =
          true ↔
        ∀ i < 8 * 1,
          (BitMap.new.applyOps [(0, true), (3, true), (3, false)]).check i =
            false) ∧
      ((BitMap.new.applyOps [(0, true), (3, true), (3, false)]).is_full 1 =
          true ↔
        ∀ i < 8 * 1,
          (BitMap.new.applyOps [(0, true), (3, true), (3, false)]).check i =
            true) :=
  bitmap_set_invariants 1 [(0, true), (3, true), (3, false)] (by decide)

/-! ## `btree/node.rs`: B+-tree nodes, `split` and `get_separators` -/

namespace BTree

/-- `NodeType` from `btree/node.rs`. -/
inductive NodeType
  | Internal
  | Leaf
deriving DecidableEq, Repr

/-- `Either<V>` from `btree/slot.rs`: a slot payload is either an inline
value or a child page pointer, instantiated at `V = i32`. -/
inductive Either
  | Value (v : Int)
  | Pointer (ptr : Int)
deriving DecidableEq, Repr

/-- A B+-tree slot `Slot(K, Either<V>)` instantiated at `K = V = i32` (as
the source's own tests do): `.1` is the key, `.2` the payload.  Its order —
used by the node's `BTreeSet` — is by key. -/
abbrev Slot := Int × Either

/-- `Node<K, V>` from `btree/node.rs`; `values` is the `BTreeSet`'s
ascending key sequence.  The set invariant (strictly ascending keys) is
carried as a hypothesis where needed. -/
structure Node where
  t : NodeType
  is_root : Bool
  len : Nat
  max : Nat
  next : Int
  id : Int
  values : List Slot
deriving DecidableEq, Repr

/-- `Node::split(id)` from `btree/node.rs`: pick the middle element
`mid = values.iter().nth(len / 2)` (`none` models the `expect` panic on an
empty node), move every slot `≥ mid` into a fresh node via
`BTreeSet::split_off(&mid)` (modelled on the ordered sequence as a key
partition), clear `is_root`, and for leaves splice the chain:
`new.next = self.next; self.next = new.id`.  Returns `(self, new)` after
mutation. -/
def Node.split (n : Node) (id : Int) : Option (Node × Node) :=
  (n.values.get? (n.values.length / 2)).map fun mid =>
    let rest := n.values.filter fun s => mid.1 ≤ s.1
    let keep := n.values.filter fun s => s.1 < mid.1
    let self1 : Node :=
      { n with values := keep, len := keep.length, is_root := false }
    let newN : Node :=
      { t := n.t, is_root := false, len := rest.length, max := n.max,
        next := -1, id := id, values := rest }
    if n.t = NodeType.Leaf then
      ({ self1 with next := id }, { newN with next := n.next })
    else
      (self1, newN)

/-- `Node::get_separator` from `btree/node.rs`: the separator of a node is
its last slot's key — incremented when the node is a leaf — paired with a
pointer to the node's own page.  `none` models the `expect` panic on an
empty node.  The key `Increment` capability is modelled from the spec for
`i32` keys: the smallest strictly-greater key, `k + 1`. -/
def Node.get_separator (n : Node) : Option Slot :=
  n.values.getLast?.map fun ls =>
    (if n.t = NodeType.Leaf then ls.1 + 1 else ls.1, Either.Pointer n.id)

/-- `Node::get_separators(other)` from `btree/node.rs`:
`other.map(|other| (self.get_separator(), other.get_separator()))`. -/
def Node.get_separators (n : Node) (other : Option Node) :
    Option (Option Slot × Option Slot) :=
  other.map fun o => (n.get_separator, o.get_separator)

end BTree

theorem filter_eq_take {α : Type} (p : α → Bool) :
    ∀ (l : List α) (k : Nat), k ≤ l.length →
      (∀ i (hi : i < l.length), p (l.get ⟨i, hi⟩) = true ↔ i < k) →
      l.filter p = l.take k
  | [], k, hk, _ => by simp at hk; simp [hk]
  | x :: xs, 0, _, h => by
    have hx : p x = false := by
      have := h 0 (by simp)
      simpa using this
    have hxs : xs.filter p = xs.take 0 :=
      filter_eq_take p xs 0 (Nat.zero_le _) fun i hi => by
        have := h (i + 1) (by simpa using Nat.succ_lt_succ hi)
        simpa using this
    simp [List.filter_cons, hx, hxs]
  | x :: xs, k + 1, hk, h => by
    have hx : p x = true := by
      have := h 0 (by simp)
      simpa using this
    have hxs : xs.filter p = xs.take k :=
      filter_eq_take p xs k (by simpa using Nat.le_of_succ_le_succ hk)
        fun i hi => by
          have := h (i + 1) (by simpa using Nat.succ_lt_succ hi)
          simpa [Nat.succ_lt_succ_iff] using this
    simp [List.filter_cons, hx, hxs]

theorem filter_eq_drop {α : Type} (p : α → Bool) :
    ∀ (l : List α) (k : Nat), k ≤ l.length →
      (∀ i (hi : i < l.length), p (l.get ⟨i, hi⟩) = true ↔ k ≤ i) →
      l.filter p = l.drop k
  | [], k, hk, _ => by simp at hk; simp [hk]
  | x :: xs, 0, _, h => by
    have hx : p x = true := by
      have := h 0 (by simp)
      simpa using this
    have hxs : xs.filter p = xs.drop 0 :=
      filter_eq_drop p xs 0 (Nat.zero_le _) fun i hi => by
        have := h (i + 1) (by simpa using Nat.succ_lt_succ hi)
        simpa using this
    simp [List.filter_cons, hx, hxs]
  | x :: xs, k + 1, hk, h => by
    have hx : p x = false := by
      have := h 0 (by simp)
      simpa using this
    have hxs : xs.filter p = xs.drop k :=
      filter_eq_drop p xs k (by simpa using Nat.le_of_succ_le_succ hk)
        fun i hi => by
          have := h (i + 1) (by simpa using Nat.succ_lt_succ hi)
          simpa [Nat.succ_le_succ_iff] using this
    simp [List.filter_cons, hx, hxs]

/-- C4: for every non-empty node with strictly ascending keys, `split`
keeps the lower half (`take (len / 2)`) in the old node and moves the upper
half (`drop (len / 2)`) into the returned new node (which gets the passed
page id and the parent's `max`); when the node is a leaf the chain is
spliced: the old node's `next` becomes the new node's id and the new
node's `next` becomes the old node's former `next` (otherwise the new
node's `next` is -1). -/
theorem BTree.Node.split_eq (n : BTree.Node) (id : Int) (mid : BTree.Slot)
    (hget : n.values.get? (n.values.length / 2) = some mid) :
    n.split id = some (
      { n with values := n.values.filter fun s => s.1 < mid.1,
               len := (n.values.filter fun s => s.1 < mid.1).length,
               is_root := false,
               next := if n.t = BTree.NodeType.Leaf then id else n.next },
      { t := n.t, is_root := false,
        len := (n.values.filter fun s => mid.1 ≤ s.1).length,
        max := n.max,
        next := if n.t = BTree.NodeType.Leaf then n.next else -1,
        id := id,
        values := n.values.filter fun s => mid.1 ≤ s.1 }) := by
  unfold BTree.Node.split
  rw [hget]
  by_cases ht : n.t = BTree.NodeType.Leaf <;> simp [ht]

theorem node_split_halves (n : BTree.Node) (id : Int)
    (hs : n.values.Pairwise fun a b => a.1 < b.1) (hne : n.values ≠ []) :
    ∃ old new, n.split id = some (old, new) ∧
      old.values = n.values.take (n.values.length / 2) ∧
      new.values = n.values.drop (n.values.length / 2) ∧
      old.len = (n.values.take (n.values.length / 2)).length ∧
      new.len = (n.values.drop (n.values.length / 2)).length ∧
      old.is_root = false ∧ new.is_root = false ∧
      new.id = id ∧ new.t = n.t ∧ new.max = n.max ∧
      (n.t = BTree.NodeType.Leaf →
        old.next = id ∧ new.next = n.next) ∧
      (n.t ≠ BTree.NodeType.Leaf →
        old.next = n.next ∧ new.next = -1) := by
  have hlen : 0 < n.values.length := List.length_pos.mpr hne
  have hklt : n.values.length / 2 < n.values.length :=
    Nat.div_lt_self hlen (by norm_num)
  have hget : n.values.get? (n.values.length / 2) =
      some (n.values.get ⟨n.values.length / 2, hklt⟩) :=
    List.get?_eq_get hklt
  have hpw := List.pairwise_iff_get.mp hs
  have hmono : ∀ i (hi : i < n.values.length),
      ((n.values.get ⟨n.values.length / 2, hklt⟩).1 ≤
          (n.values.get ⟨i, hi⟩).1 ↔
        n.values.length / 2 ≤ i) := by
    intro i hi
    constructor
    · intro hle
      by_contra hlt
      push_neg at hlt
      have hc := hpw ⟨i, hi⟩ ⟨n.values.length / 2, hklt⟩ hlt
      simp only [List.get_eq_getElem] at hc hle
      omega
    · intro hge
      rcases Nat.eq_or_lt_of_le hge with heq | hlt
      · subst heq
        exact le_rfl
      · have hc := hpw ⟨n.values.length / 2, hklt⟩ ⟨i, hi⟩ hlt
        simp only [List.get_eq_getElem] at hc ⊢
        omega
  have hrest : (n.values.filter fun s =>
      (n.values.get ⟨n.values.length / 2, hklt⟩).1 ≤ s.1) =
      n.values.drop (n.values.length / 2) := by
    apply filter_eq_drop
    · omega
    · intro i hi
      rw [decide_eq_true_eq]
      exact hmono i hi
  have hkeep : (n.values.filter fun s =>
      s.1 < (n.values.get ⟨n.values.length / 2, hklt⟩).1) =
      n.values.take (n.values.length / 2) := by
    apply filter_eq_take
    · omega
    · intro i hi
      rw [decide_eq_true_eq]
      have h1 := hmono i hi
      constructor
      · intro hlt2
        by_contra hge
        push_neg at hge
        have h2 := h1.mpr hge
        simp only [List.get_eq_getElem] at h2 hlt2
        omega
      · intro hlt2
        by_contra hge
        push_neg at hge
        have h2 := h1.mp hge
        simp only [List.get_eq_getElem] at h2 hge
        omega
  refine ⟨_, _, BTree.Node.split_eq n id _ hget, ?_, ?_, ?_, ?_, ?_, ?_,
    ?_, ?_, ?_, ?_, ?_⟩
  · exact hkeep
  · exact hrest
  · rw [hkeep]
  · rw [hrest]
  · rfl
  · rfl
  · rfl
  · rfl
  · rfl
  · intro ht
    constructor <;> simp [ht]
  · intro ht
    constructor <;> simp [ht]

/-- Witness for C4: the 11-slot leaf from the source's `test_split`. -/
theorem node_split_halves_witness :
    ∃ old new,
      (BTree.Node.mk BTree.NodeType.Leaf true 11 20 (-1) 0
          [(10, .Value 1), (20, .Value 2), (30, .Value 3), (40, .Value 4),
            (50, .Value 5), (60, .Value 6), (70, .Value 7), (80, .Value 8),
            (90, .Value 9), (100, .Value 10), (110, .Value 11)]).split 1 =
        some (old, new) ∧
      old.values = ([(10, .Value 1), (20, .Value 2), (30, .Value 3),
          (40, .Value 4), (50, .Value 5), (60, .Value 6), (70, .Value 7),
          (80, .Value 8), (90, .Value 9), (100, .Value 10),
          (110, .Value 11)] : List BTree.Slot).take (11 / 2) ∧
      new.values = ([(10, .Value 1), (20, .Value 2), (30, .Value 3),
          (40, .Value 4), (50, .Value 5), (60, .Value 6), (70, .Value 7),
          (80, .Value 8), (90, .Value 9), (100, .Value 10),
          (110, .Value 11)] : List BTree.Slot).drop (11 / 2) ∧
      old.len = (([(10, .Value 1), (20, .Value 2), (30, .Value 3),
          (40, .Value 4), (50, .Value 5), (60, .Value 6), (70, .Value 7),
          (80, .Value 8), (90, .Value 9), (100, .Value 10),
          (110, .Value 11)] : List BTree.Slot).take (11 / 2)).length ∧
      new.len = (([(10, .Value 1), (20, .Value 2), (30, .Value 3),
          (40, .Value 4), (50, .Value 5), (60, .Value 6), (70, .Value 7),
          (80, .Value 8), (90, .Value 9), (100, .Value 10),
          (110, .Value 11)] : List BTree.Slot).drop (11 / 2)).length ∧
      old.is_root = false ∧ new.is_root = false ∧
      new.id = 1 ∧ new.t = BTree.NodeType.Leaf ∧ new.max = 20 ∧
      (BTree.NodeType.Leaf = BTree.NodeType.Leaf →
        old.next = 1 ∧ new.next = -1) ∧
      (BTree.NodeType.Leaf ≠ BTree.NodeType.Leaf →
        old.next = -1 ∧ new.next = -1) :=
  node_split_halves _ 1 (by decide) (by decide)

/-- C5: for every pair of non-empty split halves, `get_separators` produces
one separator per half whose payload is a pointer to that half's page id,
and whose key is the half's last key incremented when the half is a leaf
and the half's current last key when it is internal. -/
theorem node_get_separators_spec (a b : BTree.Node)
    (ha : a.values ≠ []) (hb : b.values ≠ []) :
    a.get_separators (some b) =
      some
        (some ((if a.t = BTree.NodeType.Leaf
              then (a.values.getLast ha).1 + 1
              else (a.values.getLast ha).1), BTree.Either.Pointer a.id),
          some ((if b.t = BTree.NodeType.Leaf
              then (b.values.getLast hb).1 + 1
              else (b.values.getLast hb).1), BTree.Either.Pointer b.id)) := by
  unfold BTree.Node.get_separators BTree.Node.get_separator
  simp only [Option.map_some', List.getLast?_eq_getLast a.values ha,
    List.getLast?_eq_getLast b.values hb]

/-- Witness for C5: the two leaf halves of the source's
`test_get_separators_leaf`, yielding `(51, Pointer 0)` and
`(111, Pointer 1)`. -/
theorem node_get_separators_spec_witness :
    (BTree.Node.mk BTree.NodeType.Leaf false 5 20 1 0
        [(10, .Value 1), (20, .Value 2), (30, .Value 3), (40, .Value 4),
          (50, .Value 5)]).get_separators
      (some (BTree.Node.mk BTree.NodeType.Leaf false 6 20 (-1) 1
        [(60, .Value 6), (70, .Value 7), (80, .Value 8), (90, .Value 9),
          (100, .Value 10), (110, .Value 11)])) =
      some (some ((51 : Int), BTree.Either.Pointer 0),
        some ((111 : Int), BTree.Either.Pointer 1)) :=
  node_get_separators_spec _ _ (by decide) (by decide)

/-! ## `btree/node.rs`: the node page codec (`From<&Node> for PageBuf` and
`From<&PageBuf> for Node`) at `K = V = i32` -/

namespace BTree

/-- `From<NodeType> for u8`: Internal = 1, Leaf = 2. -/
def NodeType.toByte : NodeType → Nat
  | .Internal => 1
  | .Leaf => 2

/-- `From<u8> for NodeType`: 1 = Internal, 2 = Leaf (anything else panics
in the source; modelled by the else branch). -/
def NodeType.fromByte (b : Nat) : NodeType :=
  if b = 1 then .Internal else .Leaf

/-- `From<&Either<V>> for BytesMut` from `btree/slot.rs`: tag byte 0
followed by the value's bytes, or tag byte 1 followed by the pointer
(i32 BE). -/
def Either.toBytes : Either → List Nat
  | .Value v => 0 :: i32beBytes v
  | .Pointer p => 1 :: i32beBytes p

/-- `From<&[u8]> for Either<V>` from `btree/slot.rs`: tag 0 decodes an
inline value, tag 1 a pointer (other tags panic; modelled by the else
branch). -/
def Either.fromBytes (l : List Nat) : Either :=
  if l.getD 0 0 = 0 then .Value (i32fromBytes (l.drop 1))
  else .Pointer (i32fromBytes (l.drop 1))

/-- B+-tree slot serialisation: `key_bytes ‖ tag(1) ‖ value_or_ptr_bytes`
(spec §6; matches `From<&Slot> for BytesMut` in `btree/slot.rs`). -/
def slotToBytes (s : Slot) : List Nat :=
  i32beBytes s.1 ++ s.2.toBytes

/-- B+-tree slot deserialisation.  Modelled from the spec: the
`Slot::from(&[u8])` used by `Node::from(&PageBuf)` is not among the
provided sources; §6 fixes the layout `key_bytes ‖ tag(1) ‖ payload`. -/
def slotFromBytes (l : List Nat) : Slot :=
  (i32fromBytes (l.take 4), Either.fromBytes (l.drop 4))

/-- `BTreeSet::insert` on the ordered sequence model: slots are ordered by
key; inserting an element whose key is already present leaves the set
unchanged. -/
def setInsert : List Slot → Slot → List Slot
  | [], x => [x]
  | y :: ys, x =>
    if x.1 < y.1 then x :: y :: ys
    else if y.1 < x.1 then y :: setInsert ys x
    else y :: ys

/-- `From<&Node> for PageBuf`: header
`type(1) ‖ is_root(1) ‖ len(4) = values.len() ‖ max(4) ‖ next(4) ‖ id(4)`
followed by the slots in ascending key order, zero-padded to 4096 bytes.
(The source's all-zero `panic!` can never fire: the type byte is 1 or 2.) -/
def Node.toPageBuf (n : Node) : List Nat :=
  let header := [n.t.toByte] ++ [if n.is_root then 1 else 0] ++
    u32beBytes n.values.length ++ u32beBytes n.max ++
    i32beBytes n.next ++ i32beBytes n.id
  let body := (n.values.map slotToBytes).flatten
  header ++ body ++ List.replicate (4096 - header.length - body.length) 0

/-- Read `len` consecutive 9-byte slots (`while rem > 0` loop of
`Node::from(&PageBuf)`). -/
def parseSlots : Nat → List Nat → List Slot
  | 0, _ => []
  | rem + 1, left => slotFromBytes (left.take 9) :: parseSlots rem (left.drop 9)

/-- `From<&PageBuf> for Node`: header fields at fixed offsets, then `len`
slots parsed from byte 18 on and inserted into the `BTreeSet`. -/
def Node.fromPageBuf (buf : List Nat) : Node :=
  { t := NodeType.fromByte (buf.getD 0 0)
    is_root := buf.getD 1 0 > 0
    len := u32fromBytes ((buf.drop 2).take 4)
    max := u32fromBytes ((buf.drop 6).take 4)
    next := i32fromBytes ((buf.drop 10).take 4)
    id := i32fromBytes ((buf.drop 14).take 4)
    values :=
      (parseSlots (u32fromBytes ((buf.drop 2).take 4)) (buf.drop 18)).foldl
        setInsert [] }

/-- An `i32`-valued payload. -/
def Either.inRange : Either → Prop
  | .Value v => -2 ^ 31 ≤ v ∧ v < 2 ^ 31
  | .Pointer p => -2 ^ 31 ≤ p ∧ p < 2 ^ 31

instance (e : Either) : Decidable e.inRange := by
  cases e <;> (unfold Either.inRange; infer_instance)

/-- A slot whose key and payload are `i32`-valued. -/
def slotInRange (s : Slot) : Prop :=
  (-2 ^ 31 ≤ s.1 ∧ s.1 < 2 ^ 31) ∧ s.2.inRange

instance (s : Slot) : Decidable (slotInRange s) := by
  unfold slotInRange
  infer_instance

end BTree

theorem u32beBytes_length (n : Nat) : (u32beBytes n).length = 4 := rfl

theorem i32beBytes_length (v : Int) : (i32beBytes v).length = 4 := rfl

theorem i32fromBytes_i32beBytes (v : Int) (h1 : -2 ^ 31 ≤ v)
    (h2 : v < 2 ^ 31) : i32fromBytes (i32beBytes v) = v := by
  unfold i32beBytes i32fromBytes
  rw [u32fromBytes_u32beBytes _ (by omega)]
  by_cases h : (v % 2 ^ 32).toNat < 2 ^ 31 <;> simp only [h, if_pos, if_neg,
    if_true, if_false] <;> omega

theorem either_fromBytes_toBytes (e : BTree.Either) (h : e.inRange) :
    BTree.Either.fromBytes e.toBytes = e := by
  cases e with
  | Value v =>
    obtain ⟨h1, h2⟩ := h
    unfold BTree.Either.toBytes BTree.Either.fromBytes
    simp [i32fromBytes_i32beBytes v h1 h2]
  | Pointer p =>
    obtain ⟨h1, h2⟩ := h
    unfold BTree.Either.toBytes BTree.Either.fromBytes
    simp [i32fromBytes_i32beBytes p h1 h2]

theorem slotToBytes_length (s : BTree.Slot) : (BTree.slotToBytes s).length = 9 := by
  unfold BTree.slotToBytes
  rw [List.length_append]
  cases s.2 <;> rfl

theorem slot_roundtrip (s : BTree.Slot) (h : BTree.slotInRange s) :
    BTree.slotFromBytes (BTree.slotToBytes s) = s := by
  obtain ⟨⟨hk1, hk2⟩, he⟩ := h
  unfold BTree.slotFromBytes BTree.slotToBytes
  rw [List.take_left' (i32beBytes_length _),
    List.drop_left' (i32beBytes_length _),
    i32fromBytes_i32beBytes _ hk1 hk2, either_fromBytes_toBytes _ he]

theorem parseSlots_append (vs : List BTree.Slot) (rest : List Nat)
    (h : ∀ s ∈ vs, BTree.slotInRange s) :
    BTree.parseSlots vs.length ((vs.map BTree.slotToBytes).flatten ++ rest) =
      vs := by
  induction vs generalizing rest with
  | nil => rfl
  | cons v vs ih =>
    have hflat : ((v :: vs).map BTree.slotToBytes).flatten ++ rest =
        BTree.slotToBytes v ++ ((vs.map BTree.slotToBytes).flatten ++ rest) := by
      simp [List.append_assoc]
    rw [List.length_cons, hflat]
    unfold BTree.parseSlots
    rw [List.take_left' (slotToBytes_length v),
      List.drop_left' (slotToBytes_length v),
      slot_roundtrip v (h v (List.mem_cons_self v vs)),
      ih rest fun s hs => h s (List.mem_cons_of_mem v hs)]

theorem setInsert_append_last (s : List BTree.Slot) (x : BTree.Slot)
    (h : ∀ y ∈ s, y.1 < x.1) : BTree.setInsert s x = s ++ [x] := by
  induction s with
  | nil => rfl
  | cons y ys ih =>
    have hy : y.1 < x.1 := h y (List.mem_cons_self y ys)
    unfold BTree.setInsert
    rw [if_neg (by omega), if_pos hy,
      ih fun z hz => h z (List.mem_cons_of_mem y hz)]
    rfl

theorem foldl_setInsert_sorted (vs : List BTree.Slot) :
    ∀ acc : List BTree.Slot, (∀ y ∈ acc, ∀ z ∈ vs, y.1 < z.1) →
      vs.Pairwise (fun a b => a.1 < b.1) →
      vs.foldl BTree.setInsert acc = acc ++ vs := by
  induction vs with
  | nil => intro acc _ _; simp
  | cons v vs ih =>
    intro acc hacc hpw
    rw [List.foldl_cons,
      setInsert_append_last acc v fun y hy =>
        hacc y hy v (List.mem_cons_self v vs)]
    rw [ih (acc ++ [v]) ?_ (List.pairwise_cons.mp hpw).2]
    · simp
    · intro y hy z hz
      rcases List.mem_append.mp hy with hya | hyv
      · exact hacc y hya z (List.mem_cons_of_mem v hz)
      · have : y = v := by simpa using hyv
        subst this
        exact (List.pairwise_cons.mp hpw).1 z hz

/-- C7: for every node whose `len` field equals its number of slots, whose
slots fit in one page and carry `i32`-valued sorted keys and payloads,
decoding the page buffer encoded from it yields an equal node — type,
is_root, len, max, next, id and all slots are preserved. -/
theorem node_page_roundtrip (n : BTree.Node)
    (hlen : n.len = n.values.length)
    (hfit : 18 + 9 * n.values.length ≤ 4096)
    (hmax : n.max < 2 ^ 32)
    (hnext1 : -2 ^ 31 ≤ n.next) (hnext2 : n.next < 2 ^ 31)
    (hid1 : -2 ^ 31 ≤ n.id) (hid2 : n.id < 2 ^ 31)
    (hslots : ∀ s ∈ n.values, BTree.slotInRange s)
    (hsorted : n.values.Pairwise fun a b => a.1 < b.1) :
    BTree.Node.fromPageBuf n.toPageBuf = n := by
  have hb0 : n.toPageBuf.getD 0 0 = n.t.toByte := rfl
  have hb1 : n.toPageBuf.getD 1 0 = if n.is_root then 1 else 0 := rfl
  have hb2 : (n.toPageBuf.drop 2).take 4 = u32beBytes n.values.length := by
    show ((u32beBytes n.values.length ++ (u32beBytes n.max ++
      (i32beBytes n.next ++ (i32beBytes n.id ++ _)))).take 4) = _
    rw [List.take_left' (u32beBytes_length _)]
  have hb6 : (n.toPageBuf.drop 6).take 4 = u32beBytes n.max := by
    show ((u32beBytes n.max ++ (i32beBytes n.next ++ (i32beBytes n.id ++
      _))).take 4) = _
    rw [List.take_left' (u32beBytes_length _)]
  have hb10 : (n.toPageBuf.drop 10).take 4 = i32beBytes n.next := by
    show ((i32beBytes n.next ++ (i32beBytes n.id ++ _)).take 4) = _
    rw [List.take_left' (i32beBytes_length _)]
  have hb14 : (n.toPageBuf.drop 14).take 4 = i32beBytes n.id := by
    show ((i32beBytes n.id ++ _).take 4) = _
    rw [List.take_left' (i32beBytes_length _)]
  have hb18 : n.toPageBuf.drop 18 =
      (n.values.map BTree.slotToBytes).flatten ++
        List.replicate
          (4096 - 18 - (n.values.map BTree.slotToBytes).flatten.length) 0 := by
    show ((n.values.map BTree.slotToBytes).flatten ++ _) = _
    rfl
  have hlen32 : n.values.length < 2 ^ 32 := by omega
  unfold BTree.Node.fromPageBuf
  rw [hb0, hb1, hb2, hb6, hb10, hb14, hb18,
    u32fromBytes_u32beBytes _ hlen32, u32fromBytes_u32beBytes _ hmax,
    i32fromBytes_i32beBytes _ hnext1 hnext2,
    i32fromBytes_i32beBytes _ hid1 hid2, parseSlots_append _ _ hslots,
    foldl_setInsert_sorted _ _ (by simp) hsorted, List.nil_append]
  have ht : BTree.NodeType.fromByte n.t.toByte = n.t := by
    cases n.t <;> rfl
  have hr : (decide ((if n.is_root then 1 else 0) > 0)) = n.is_root := by
    cases n.is_root <;> rfl
  rw [ht, hr, ← hlen]

/-- Witness for C7: the ten-slot root leaf of the source's `test_from`. -/
theorem node_page_roundtrip_witness :
    BTree.Node.fromPageBuf
        (BTree.Node.mk BTree.NodeType.Leaf true 10 20 (-1) 0
          [(0, .Pointer 1), (1, .Pointer 2), (2, .Pointer 3),
            (3, .Pointer 4), (4, .Pointer 5), (10, .Value 20),
            (20, .Value 30), (30, .Value 40), (40, .Value 50),
            (50, .Value 60)]).toPageBuf =
      BTree.Node.mk BTree.NodeType.Leaf true 10 20 (-1) 0
        [(0, .Pointer 1), (1, .Pointer 2), (2, .Pointer 3),
          (3, .Pointer 4), (4, .Pointer 5), (10, .Value 20),
          (20, .Value 30), (30, .Value 40), (40, .Value 50),
          (50, .Value 60)] :=
  node_page_roundtrip _ (by decide) (by decide) (by decide) (by decide)
    (by decide) (by decide) (by decide) (by decide) (by decide)

/-! ## `hash_table/extendible.rs`: the bucket-split section of `insert` -/

namespace Hash

/-- `ExtendibleHashTable::get_bucket_index`: mask the hash with the low
`global_depth` bits, then reduce modulo the directory capacity `N`
(`dir_page::PAGE_IDS_SIZE_U32`, a modelling parameter here).  The
`global_depth_mask` is modelled from the spec (`dir_page.rs` is not among
the provided sources): the low `global_depth` bits. -/
def getBucketIndex (hash : Nat → Nat) (globalDepth N : Nat) (k : Nat) : Nat :=
  (hash k &&& ((1 <<< globalDepth) - 1)) % N

/-- The outcome of the bucket-split section of
`ExtendibleHashTable::insert` (the `if bucket.is_full()` block): the two
rebuilt buckets, the byte images written to the two new pages (a bucket
page's serialisation is modelled by its ordered pair list, which the real
codec determines uniquely), and the directory slot redirections in loop
order. -/
structure SplitResult (V : Type) where
  bucket0 : List (Nat × V)
  bucket1 : List (Nat × V)
  page0buf : List (Nat × V)
  page1buf : List (Nat × V)
  redirects : List (Nat × Int)
deriving DecidableEq, Repr

/-- The split section of `ExtendibleHashTable::insert`, after the
directory has (if needed) doubled, with `globalDepth` the post-double
depth and `localDepth` the old bucket's local depth (`Bucket` is modelled
from the spec: insertion appends at the first unoccupied slot, so a
rebuilt bucket is an ordered pair list).  Faithfully to the source:
pairs are partitioned into `bucket1`/`bucket0` by `i & bit` with
`bit = 1 << localDepth`; the directory slots
`(get_bucket_index(k) & (bit - 1) .. N).step_by(bit)` are redirected to
`page0` when `i & bit > 0` and `page1` otherwise; and page0 AND page1 are
both written with `PageBuf::from(&bucket0)`. -/
def splitStep {V : Type} (hash : Nat → Nat) (globalDepth localDepth N : Nat)
    (k : Nat) (pairs : List (Nat × V)) (page0id page1id : Int) :
    SplitResult V :=
  let bit := 1 <<< localDepth
  let bucket1 := pairs.filter fun p =>
    getBucketIndex hash globalDepth N p.1 &&& bit > 0
  let bucket0 := pairs.filter fun p =>
    ¬ getBucketIndex hash globalDepth N p.1 &&& bit > 0
  let start := getBucketIndex hash globalDepth N k &&& (bit - 1)
  let redirects :=
    ((List.range N).filter fun i => start ≤ i ∧ (i - start) % bit = 0).map
      fun i => (i, if i &&& bit > 0 then page0id else page1id)
  { bucket0 := bucket0, bucket1 := bucket1,
    page0buf := bucket0, page1buf := bucket0, redirects := redirects }

end Hash

/-- C1: the split path does NOT give each new page its own partition, and
the redirection is inverted.  Failing input (identity hash, old local
depth 0, global depth 1 after doubling, directory capacity 4, bucket pairs
`[(0, 10), (1, 11)]`, new pages 2 and 3): the pairs are partitioned
correctly (`bucket0 = [(0,10)]`, `bucket1 = [(1,11)]`), but page1 is
written with `bucket0`'s serialisation — not its own partition
`bucket1` — and the directory slots with the new bit set (1 and 3) are
pointed at page0 (id 2), which holds the bit-clear partition, so the
bit-set pairs become unreachable. -/
theorem hash_split_writes_bucket0_twice :
    (Hash.splitStep (fun k => k) 1 0 4 0 [(0, (10 : Nat)), (1, 11)] 2
        3).bucket0 = [(0, 10)] ∧
      (Hash.splitStep (fun k => k) 1 0 4 0 [(0, (10 : Nat)), (1, 11)] 2
        3).bucket1 = [(1, 11)] ∧
      (Hash.splitStep (fun k => k) 1 0 4 0 [(0, (10 : Nat)), (1, 11)] 2
        3).page1buf = [(0, 10)] ∧
      (Hash.splitStep (fun k => k) 1 0 4 0 [(0, (10 : Nat)), (1, 11)] 2
        3).page1buf ≠
        (Hash.splitStep (fun k => k) 1 0 4 0 [(0, (10 : Nat)), (1, 11)] 2
          3).bucket1 ∧
      (Hash.splitStep (fun k => k) 1 0 4 0 [(0, (10 : Nat)), (1, 11)] 2
        3).redirects = [(0, 3), (1, 2), (2, 3), (3, 2)] := by
  decide

/-! ## `table/list.rs` with the heap node of `table/node.rs`
(spec-modelled): `List` as `HeapList` -/

/-- Record id `RId { page_id, slot_id }` from `table/tuple.rs`. -/
structure RId where
  page_id : Int
  slot_id : Nat
deriving DecidableEq, Repr

/-- `Tuple { rid, data }` from `table/tuple.rs`. -/
structure Tuple where
  rid : RId
  data : List Nat
deriving DecidableEq, Repr

/-- Heap node.  Modelled from the spec: `table/node.rs` is not among the
provided sources.  Header `{ next_page_id (i32), slot_count (u32) }` (8
bytes), a forward-growing directory of 9-byte slot records and a
backward-growing tuple region in a 4096-byte page.  A node decoded from a
zeroed fresh page has `next_page_id = 0`. -/
structure HeapNode where
  next_page_id : Int
  slots : List (TupleMeta × List Nat)
deriving DecidableEq, Repr

/-- The node decoded from a fresh zero page. -/
def HeapNode.empty : HeapNode :=
  { next_page_id := 0, slots := [] }

/-- Bytes of the tuple region in use. -/
def HeapNode.usedTupleBytes (n : HeapNode) : Nat :=
  (n.slots.map fun s => s.2.length).sum

/-- Heap node insert.  Modelled from the spec: the node admits the tuple
iff the grown slot directory and the grown tuple region do not collide
(header 8 bytes + 9 bytes per slot record + tuple bytes within the
4096-byte page); on success the tuple is appended and its slot id (the
previous slot count) returned. -/
def HeapNode.insertTuple (n : HeapNode) (data : List Nat)
    (meta : TupleMeta) : Option (HeapNode × Nat) :=
  if 8 + 9 * (n.slots.length + 1) + (n.usedTupleBytes + data.length) ≤ 4096
  then some ({ n with slots := n.slots ++ [(meta, data)] }, n.slots.length)
  else none

/-- Heap node lookup.  Modelled from the spec: `(meta, tuple)` of the slot,
`None` when the slot id is not installed; the returned tuple carries the
record id (`List::get` overwrites `tuple.rid` with the queried rid). -/
def HeapNode.getTuple (n : HeapNode) (r : RId) :
    Option (TupleMeta × Tuple) :=
  (n.slots.get? r.slot_id).map fun s => (s.1, ⟨r, s.2⟩)

/-- `List<D>` from `table/list.rs` (named `HeapList`, `List` being taken
by Lean's list type): `first_page_id`, `last_page_id` and — standing for
the page cache and disk it borrows — the decoded pages, indexed by page
id (the cache's allocator hands out ids 0, 1, 2, … as in the tests). -/
structure HeapList where
  pages : List HeapNode
  first_page_id : Int
  last_page_id : Int
deriving DecidableEq, Repr

/-- `List::default()`: both page ids `-1`. -/
def HeapList.default : HeapList :=
  { pages := [], first_page_id := -1, last_page_id := -1 }

/-- `PageCache::fetch_page` + `Node::from`: the decoded node of a page id
(`none` is the cache's error path, hit for negative or unallocated ids). -/
def HeapList.fetchNode (s : HeapList) (pid : Int) : Option HeapNode :=
  if pid < 0 then none else s.pages.get? pid.toNat

/-- The four ways `List::insert` can come back: a record id, the
`todo!("tuple too large error")` panic, the `unreachable!()` panic when
the fresh page rejects the tuple, or a page-cache error. -/
inductive InsertResult
  | ok (rid : RId)
  | todoPanic
  | unreachablePanic
  | cacheErr
deriving DecidableEq, Repr

/-- `List::insert` from `table/list.rs`: on `last_page_id = -1` allocate
the first page and insert (an oversized tuple hits `todo!`); otherwise
fetch the last page and insert there; if it rejects and is non-empty,
allocate a new page, link `next_page_id`, write the old node back and
insert into the fresh node — whose rejection is `unreachable!()`. -/
def HeapList.insert (s : HeapList) (tuple_data : List Nat)
    (meta : TupleMeta) : InsertResult × HeapList :=
  if s.last_page_id = -1 then
    let pid : Int := (s.pages.length : Int)
    let pages1 := s.pages ++ [HeapNode.empty]
    let s1 : HeapList :=
      { pages := pages1, first_page_id := pid, last_page_id := pid }
    match HeapNode.empty.insertTuple tuple_data meta with
    | some (node1, slot_id) =>
      (.ok ⟨s1.last_page_id, slot_id⟩,
        { s1 with pages := pages1.set pid.toNat node1 })
    | none => (.todoPanic, s1)
  else
    match s.pages.get? s.last_page_id.toNat with
    | none => (.cacheErr, s)
    | some node =>
      match node.insertTuple tuple_data meta with
      | some (node1, slot_id) =>
        (.ok ⟨s.last_page_id, slot_id⟩,
          { s with pages := s.pages.set s.last_page_id.toNat node1 })
      | none =>
        if node.slots.length = 0 then (.todoPanic, s)
        else
          let npid : Int := (s.pages.length : Int)
          let node1 := { node with next_page_id := npid }
          let pages1 :=
            (s.pages.set s.last_page_id.toNat node1) ++ [HeapNode.empty]
          let s1 : HeapList :=
            { pages := pages1, first_page_id := s.first_page_id,
              last_page_id := npid }
          match HeapNode.empty.insertTuple tuple_data meta with
          | some (node2, slot_id) =>
            (.ok ⟨npid, slot_id⟩,
              { s1 with pages := pages1.set npid.toNat node2 })
          | none => (.unreachablePanic, s1)

/-- C3: when the last page rejects a tuple, `insert` does allocate a new
page and link the prior node's `next_page_id` to it — but a tuple the
fresh page also rejects hits `unreachable!()` (and, on a fresh list,
`todo!("tuple too large error")`): no `TupleTooLarge` error value is ever
returned.  Evaluated at a 4080-byte tuple, which no fresh page admits
(8 + 9 + 4080 > 4096), after one small insert. -/
theorem heap_insert_too_large_panics :
    ((HeapList.default.insert [0, 1, 2] ⟨false⟩).2.insert
        (List.replicate 4080 0) ⟨false⟩).1 =
      InsertResult.unreachablePanic ∧
      ((HeapList.default.insert [0, 1, 2] ⟨false⟩).2.insert
          (List.replicate 4080 0) ⟨false⟩).2.pages.length = 2 ∧
      (((HeapList.default.insert [0, 1, 2] ⟨false⟩).2.insert
            (List.replicate 4080 0) ⟨false⟩).2.pages.get? 0).map
          HeapNode.next_page_id = some 1 ∧
      (HeapList.default.insert (List.replicate 4080 0) ⟨false⟩).1 =
        InsertResult.todoPanic := by
  have hsmall : HeapList.default.insert [0, 1, 2] ⟨false⟩ =
      (.ok ⟨0, 0⟩,
        { pages := [{ next_page_id := 0, slots := [(⟨false⟩, [0, 1, 2])] }],
          first_page_id := 0, last_page_id := 0 }) := by
    decide
  rw [hsmall]
  generalize hd : List.replicate 4080 (0 : Nat) = data
  have hlen : data.length = 4080 := by
    rw [← hd, List.length_replicate]
  refine ⟨?_, ?_, ?_, ?_⟩ <;>
    simp [HeapList.insert, HeapList.default, HeapNode.insertTuple,
      HeapNode.usedTupleBytes, HeapNode.empty, hlen]

/-! ## `table/list.rs`: `iter` and `Iter::next` -/

/-- `List::get` from `table/list.rs`: `Ok(None)` when the list is
uninitialised, otherwise fetch the rid's page and look the slot up,
overwriting the returned tuple's `rid` with the queried one.  The outer
`Option` is the `Result` (`none` = cache error), the inner the lookup. -/
def HeapList.get (s : HeapList) (r : RId) :
    Option (Option (TupleMeta × Tuple)) :=
  if s.first_page_id = -1 ∨ s.last_page_id = -1 then some none
  else (s.fetchNode r.page_id).map fun node => node.getTuple r

/-- `Iter { r_id, end }` from `table/list.rs` (`end` is a Lean keyword,
hence `endr`). -/
structure Iter where
  r_id : RId
  endr : RId
deriving DecidableEq, Repr

/-- `List::iter`: fetch the last page and record the end cursor
`(last_page_id, node.len())` at creation time; the running cursor starts
at `(first_page_id, 0)`. -/
def HeapList.iter (s : HeapList) : Option Iter :=
  (s.fetchNode s.last_page_id).map fun node =>
    { r_id := ⟨s.first_page_id, 0⟩,
      endr := ⟨s.last_page_id, node.slots.length⟩ }

/-- One `Iter::next` outcome: Rust's `None`, `Some(Ok(t))` or
`Some(Err(_))`. -/
inductive IterStep
  | stop
  | yield (t : TupleMeta × Tuple)
  | oom
deriving DecidableEq, Repr

/-- Wrap `List::get`'s carried `result` the way `Iter::next` returns it. -/
def liftGot : Option (Option (TupleMeta × Tuple)) → IterStep
  | some (some t) => .yield t
  | some none => .stop
  | none => .oom

/-- `Iter::next` from `table/list.rs`: return `None` at the end cursor;
return `None` on a lookup miss; carry a lookup error; re-fetch the
cursor's page, then either (a) at the end page's last slot bump the cursor
past the end and yield, (b) bump the slot when another slot remains,
(c) stop when `next_page_id == 0`, or (d) jump to `(next_page_id, 0)` and
yield. -/
def HeapList.iterNext (s : HeapList) (it : Iter) : IterStep × Iter :=
  if it.endr = it.r_id then (.stop, it)
  else
    match s.get it.r_id with
    | some none => (.stop, it)
    | got =>
      match s.fetchNode it.r_id.page_id with
      | none => (.oom, it)
      | some node =>
        if it.r_id.page_id = it.endr.page_id ∧
            it.r_id.slot_id = it.endr.slot_id - 1 then
          (liftGot got,
            { it with r_id := ⟨it.r_id.page_id, it.r_id.slot_id + 1⟩ })
        else if it.r_id.slot_id + 1 < node.slots.length then
          (liftGot got,
            { it with r_id := ⟨it.r_id.page_id, it.r_id.slot_id + 1⟩ })
        else if node.next_page_id = 0 then (.stop, it)
        else (liftGot got, { it with r_id := ⟨node.next_page_id, 0⟩ })

/-- Drive `Iter::next` until it stops (or fuel runs out), collecting the
yielded items and the final iterator state. -/
def HeapList.iterRun : Nat → HeapList → Iter →
    List (TupleMeta × Tuple) × Iter
  | 0, _, it => ([], it)
  | fuel + 1, s, it =>
    match s.iterNext it with
    | (.yield t, it2) =>
      let r := HeapList.iterRun fuel s it2
      (t :: r.1, r.2)
    | (.stop, it2) => ([], it2)
    | (.oom, it2) => ([], it2)

/-- The `(meta, tuple)` items of a page's slot suffix, starting at slot
index `k` of page `p`, with their record ids. -/
def slotsItems (p : Nat) : Nat → List (TupleMeta × List Nat) →
    List (TupleMeta × Tuple)
  | _, [] => []
  | k, s :: rest => (s.1, ⟨⟨(p : Int), k⟩, s.2⟩) :: slotsItems p (k + 1) rest

/-- All items of a run of pages, the first having page id `base`. -/
def pagesItems : List HeapNode → Nat → List (TupleMeta × Tuple)
  | [], _ => []
  | nd :: rest, base =>
    slotsItems base 0 nd.slots ++ pagesItems rest (base + 1)

/-- The items an iterator at cursor `(p, k)` has yet to produce. -/
def itemsFrom (s : HeapList) (p k : Nat) : List (TupleMeta × Tuple) :=
  slotsItems p k (((s.pages.get? p).getD HeapNode.empty).slots.drop k) ++
    pagesItems (s.pages.drop (p + 1)) (p + 1)

/-- Well-formedness of a heap list built by successful inserts: pages ids
0..n-1 with the first page id 0 and the last n-1, each page non-empty, and
the chain linking page i to page i+1. -/
structure HeapWF (s : HeapList) : Prop where
  ne : s.pages ≠ []
  first : s.first_page_id = 0
  last : s.last_page_id = ((s.pages.length - 1 : Nat) : Int)
  chain : ∀ i, i + 1 < s.pages.length →
    ((s.pages.get? i).getD HeapNode.empty).next_page_id = ((i + 1 : Nat) : Int)
  pagesNe : ∀ p ∈ s.pages, p.slots ≠ []

/-- The end cursor a well-formed list's iterator records at creation. -/
def endCursor (s : HeapList) : RId :=
  ⟨((s.pages.length - 1 : Nat) : Int),
    ((s.pages.get? (s.pages.length - 1)).getD HeapNode.empty).slots.length⟩

theorem heapGet_at (s : HeapList) (hWF : HeapWF s) (p k : Nat)
    (nodep : HeapNode) (hnodep : s.pages.get? p = some nodep)
    (hklt : k < nodep.slots.length) :
    s.get ⟨(p : Int), k⟩ =
      some (some ((nodep.slots.get ⟨k, hklt⟩).1,
        ⟨⟨(p : Int), k⟩, (nodep.slots.get ⟨k, hklt⟩).2⟩)) := by
  unfold HeapList.get
  rw [if_neg]
  · unfold HeapList.fetchNode
    rw [if_neg (by omega : ¬ ((p : Int) < 0))]
    rw [show ((p : Int)).toNat = p from Int.toNat_natCast p, hnodep]
    simp [HeapNode.getTuple, List.get?_eq_get hklt]
  · rw [hWF.first, hWF.last]
    push_neg
    constructor <;> omega

theorem heapFetch_at (s : HeapList) (p : Nat) (nodep : HeapNode)
    (hnodep : s.pages.get? p = some nodep) :
    s.fetchNode (p : Int) = some nodep := by
  unfold HeapList.fetchNode
  rw [if_neg (by omega : ¬ ((p : Int) < 0)),
    show ((p : Int)).toNat = p from Int.toNat_natCast p, hnodep]

theorem iterNext_eval (s : HeapList) (pg : Int) (k : Nat) (endr : RId)
    (hne : ¬ (endr = ⟨pg, k⟩)) (t : TupleMeta × Tuple) (node : HeapNode)
    (hGet : s.get ⟨pg, k⟩ = some (some t))
    (hFetch : s.fetchNode pg = some node) :
    s.iterNext ⟨⟨pg, k⟩, endr⟩ =
      if pg = endr.page_id ∧ k = endr.slot_id - 1 then
        (.yield t, ⟨⟨pg, k + 1⟩, endr⟩)
      else if k + 1 < node.slots.length then
        (.yield t, ⟨⟨pg, k + 1⟩, endr⟩)
      else if node.next_page_id = 0 then (.stop, ⟨⟨pg, k⟩, endr⟩)
      else (.yield t, ⟨⟨node.next_page_id, 0⟩, endr⟩) := by
  unfold HeapList.iterNext
  rw [if_neg hne]
  rw [show (⟨⟨pg, k⟩, endr⟩ : Iter).r_id = ⟨pg, k⟩ from rfl] at *
  rw [hGet]
  rw [show (⟨pg, k⟩ : RId).page_id = pg from rfl, hFetch]
  rfl

theorem iterRun_succ_yield (fuel : Nat) (s : HeapList) (it it2 : Iter)
    (t : TupleMeta × Tuple) (h : s.iterNext it = (.yield t, it2)) :
    s.iterRun (fuel + 1) it =
      (t :: (s.iterRun fuel it2).1, (s.iterRun fuel it2).2) := by
  simp only [HeapList.iterRun, h]

theorem iterRun_succ_stop (fuel : Nat) (s : HeapList) (it it2 : Iter)
    (h : s.iterNext it = (.stop, it2)) :
    s.iterRun (fuel + 1) it = ([], it2) := by
  simp only [HeapList.iterRun, h]

theorem iterRun_spec (s : HeapList) (hWF : HeapWF s) :
    ∀ (fuel p k : Nat), p < s.pages.length →
      ∀ (nodep : HeapNode), s.pages.get? p = some nodep →
      k ≤ nodep.slots.length →
      (k = nodep.slots.length → p = s.pages.length - 1) →
      (itemsFrom s p k).length < fuel →
      s.iterRun fuel ⟨⟨(p : Int), k⟩, endCursor s⟩ =
        (itemsFrom s p k, ⟨endCursor s, endCursor s⟩) := by
  intro fuel
  induction fuel with
  | zero =>
    intro p k hp nodep hnodep hk hkp hfuel
    omega
  | succ fuel ih =>
    intro p k hp nodep hnodep hk hkp hfuel
    have hgetD : (s.pages.get? p).getD HeapNode.empty = nodep := by
      rw [hnodep]
      rfl
    have hpgE : (endCursor s).page_id = ((s.pages.length - 1 : Nat) : Int) :=
      rfl
    have hslE : (endCursor s).slot_id =
        ((s.pages.get? (s.pages.length - 1)).getD
          HeapNode.empty).slots.length := rfl
    by_cases hendc : p = s.pages.length - 1 ∧ k = nodep.slots.length
    · -- the cursor is the end cursor: the iterator stops at once
      obtain ⟨hp1, hk1⟩ := hendc
      have hitems : itemsFrom s p k = [] := by
        unfold itemsFrom
        rw [hgetD, hk1, List.drop_length,
          List.drop_eq_nil_of_le (by omega : s.pages.length ≤ p + 1)]
        rfl
      have hcur : endCursor s = ⟨(p : Int), k⟩ := by
        unfold endCursor
        rw [← hp1, hnodep]
        simp [hk1]
      have hstop : s.iterNext ⟨⟨(p : Int), k⟩, endCursor s⟩ =
          (.stop, ⟨⟨(p : Int), k⟩, endCursor s⟩) := by
        unfold HeapList.iterNext
        rw [if_pos hcur]
      rw [iterRun_succ_stop fuel s _ _ hstop, hitems, hcur]
    · -- somewhere strictly before the end cursor
      have hklt : k < nodep.slots.length := by
        rcases Nat.eq_or_lt_of_le hk with heq | hlt
        · exact absurd ⟨hkp heq, heq⟩ hendc
        · exact hlt
      have hlen0 : 0 < s.pages.length := List.length_pos.mpr hWF.ne
      have hne : ¬ (endCursor s = ⟨(p : Int), k⟩) := by
        intro h
        unfold endCursor at h
        rw [RId.mk.injEq] at h
        obtain ⟨h1, h2⟩ := h
        have hpeq : s.pages.length - 1 = p := by omega
        rw [hpeq, hnodep] at h2
        simp at h2
        exact hendc ⟨hpeq.symm, h2.symm⟩
      have hGet := heapGet_at s hWF p k nodep hnodep hklt
      have hFetch := heapFetch_at s p nodep hnodep
      have hstep := iterNext_eval s (p : Int) k (endCursor s) hne _ nodep
        hGet hFetch
      have hdropslots : nodep.slots.drop k =
          nodep.slots.get ⟨k, hklt⟩ :: nodep.slots.drop (k + 1) := by
        rw [List.drop_eq_getElem_cons hklt]
        rfl
      have hitems : itemsFrom s p k =
          ((nodep.slots.get ⟨k, hklt⟩).1,
            ⟨⟨(p : Int), k⟩, (nodep.slots.get ⟨k, hklt⟩).2⟩) ::
            (slotsItems p (k + 1) (nodep.slots.drop (k + 1)) ++
              pagesItems (s.pages.drop (p + 1)) (p + 1)) := by
        unfold itemsFrom
        rw [hgetD, hdropslots]
        rfl
      have hlenstep : (itemsFrom s p k).length =
          (itemsFrom s p (k + 1)).length + 1 := by
        rw [hitems]
        unfold itemsFrom
        rw [hgetD]
        rfl
      by_cases hbr1 : (p : Int) = (endCursor s).page_id ∧
          k = (endCursor s).slot_id - 1
      · -- branch (a): last slot of the end page
        have hyield : s.iterNext ⟨⟨(p : Int), k⟩, endCursor s⟩ =
            (.yield ((nodep.slots.get ⟨k, hklt⟩).1,
              ⟨⟨(p : Int), k⟩, (nodep.slots.get ⟨k, hklt⟩).2⟩),
              ⟨⟨(p : Int), k + 1⟩, endCursor s⟩) := by
          rw [hstep, if_pos hbr1]
        have hp1 : p = s.pages.length - 1 := by
          have h1 := hbr1.1
          rw [hpgE] at h1
          omega
        have hlenlast :
            ((s.pages.get? (s.pages.length - 1)).getD
              HeapNode.empty).slots.length = nodep.slots.length := by
          rw [← hp1, hnodep]
          rfl
        have hrec := ih p (k + 1) hp nodep hnodep (by
            have h2 := hbr1.2
            rw [hslE, hlenlast] at h2
            omega)
          (fun _ => hp1) (by omega)
        rw [iterRun_succ_yield fuel s _ _ _ hyield, hrec, hitems]
        unfold itemsFrom
        rw [hgetD]
      · by_cases hbr2 : k + 1 < nodep.slots.length
        · -- branch (b): more slots on this page
          have hyield : s.iterNext ⟨⟨(p : Int), k⟩, endCursor s⟩ =
              (.yield ((nodep.slots.get ⟨k, hklt⟩).1,
                ⟨⟨(p : Int), k⟩, (nodep.slots.get ⟨k, hklt⟩).2⟩),
                ⟨⟨(p : Int), k + 1⟩, endCursor s⟩) := by
            rw [hstep, if_neg hbr1, if_pos hbr2]
          have hkp2 : k + 1 = nodep.slots.length →
              p = s.pages.length - 1 := fun h => absurd h (by omega)
          have hrec := ih p (k + 1) hp nodep hnodep (by omega) hkp2
            (by omega)
          rw [iterRun_succ_yield fuel s _ _ _ hyield, hrec, hitems]
          unfold itemsFrom
          rw [hgetD]
        · -- branch (d): page exhausted, jump to the next page
          have hk1 : k + 1 = nodep.slots.length := by omega
          have hpne : p ≠ s.pages.length - 1 := by
            intro hp1
            apply hbr1
            have hlenlast :
                ((s.pages.get? (s.pages.length - 1)).getD
                  HeapNode.empty).slots.length = nodep.slots.length := by
              rw [← hp1, hnodep]
              rfl
            constructor
            · rw [hpgE]
              omega
            · rw [hslE, hlenlast]
              omega
          have hplt : p + 1 < s.pages.length := by omega
          have hnext : nodep.next_page_id = ((p + 1 : Nat) : Int) := by
            have := hWF.chain p hplt
            rw [hgetD] at this
            exact this
          have hyield : s.iterNext ⟨⟨(p : Int), k⟩, endCursor s⟩ =
              (.yield ((nodep.slots.get ⟨k, hklt⟩).1,
                ⟨⟨(p : Int), k⟩, (nodep.slots.get ⟨k, hklt⟩).2⟩),
                ⟨⟨((p + 1 : Nat) : Int), 0⟩, endCursor s⟩) := by
            rw [hstep, if_neg hbr1, if_neg hbr2, hnext,
              if_neg (by omega : ¬ ((p + 1 : Nat) : Int) = 0)]
          obtain ⟨nodeq, hnodeq⟩ : ∃ nd, s.pages.get? (p + 1) = some nd :=
            ⟨_, List.get?_eq_get hplt⟩
          have hgetDq : (s.pages.get? (p + 1)).getD HeapNode.empty =
              nodeq := by
            rw [hnodeq]
            rfl
          have hqne : nodeq.slots ≠ [] :=
            hWF.pagesNe nodeq (List.get?_mem hnodeq)
          have hkpq : (0 : Nat) = nodeq.slots.length →
              p + 1 = s.pages.length - 1 := by
            intro h0
            exact absurd (List.length_eq_zero.mp h0.symm) hqne
          have hdroppages : s.pages.drop (p + 1) =
              nodeq :: s.pages.drop (p + 1 + 1) := by
            rw [List.drop_eq_getElem_cons hplt]
            have hq : s.pages.get ⟨p + 1, hplt⟩ = nodeq := by
              have h3 := List.get?_eq_get hplt
              rw [hnodeq] at h3
              exact (Option.some_inj.mp h3).symm
            rw [← hq]
            rfl
          have hiFrom : itemsFrom s (p + 1) 0 =
              pagesItems (s.pages.drop (p + 1)) (p + 1) := by
            unfold itemsFrom
            rw [hgetDq, hdroppages]
            rfl
          have hlast : itemsFrom s p k =
              ((nodep.slots.get ⟨k, hklt⟩).1,
                ⟨⟨(p : Int), k⟩, (nodep.slots.get ⟨k, hklt⟩).2⟩) ::
                itemsFrom s (p + 1) 0 := by
            rw [hitems, hk1, List.drop_length, hiFrom]
            rfl
          have hrec := ih (p + 1) 0 hplt nodeq hnodeq (Nat.zero_le _)
            hkpq (by
              have h4 : (itemsFrom s p k).length =
                  (itemsFrom s (p + 1) 0).length + 1 := by
                rw [hlast]
                rfl
              omega)
          rw [iterRun_succ_yield fuel s _ _ _ hyield, hrec, hlast]

theorem set_last_append {α : Type} (l : List α) (a b : α) :
    (l ++ [a]).set l.length b = l ++ [b] := by
  induction l with
  | nil => rfl
  | cons x xs ih =>
    show x :: (xs ++ [a]).set xs.length b = x :: (xs ++ [b])
    rw [ih]

theorem set_last_append' {α : Type} (l : List α) (a b : α) (n : Nat)
    (h : n = l.length) : (l ++ [a]).set n b = l ++ [b] := by
  rw [h, set_last_append]

/-- All `(meta, data)` slots of the list in page-chain order. -/
def allSlots (s : HeapList) : List (TupleMeta × List Nat) :=
  (s.pages.map HeapNode.slots).flatten

/-- Fold a sequence of inserts over a default (empty) list. -/
def insertAll (ts : List (List Nat × TupleMeta)) : HeapList :=
  ts.foldl (fun acc t => (acc.insert t.1 t.2).2) HeapList.default

theorem insert_preserves (s : HeapList) (hWF : HeapWF s) (d : List Nat)
    (m : TupleMeta) (hfit : 17 + d.length ≤ 4096) :
    HeapWF (s.insert d m).2 ∧
      allSlots (s.insert d m).2 = allSlots s ++ [(m, d)] := by
  obtain ⟨front, lastnode, hsplit⟩ :
      ∃ front lastnode, s.pages = front ++ [lastnode] := by
    rcases List.eq_nil_or_concat s.pages with h | ⟨L, b, h⟩
    · exact absurd h hWF.ne
    · exact ⟨L, b, by rw [h, List.concat_eq_append]⟩
  have hlen0 : 0 < s.pages.length := List.length_pos.mpr hWF.ne
  have hget_front : ∀ x : HeapNode,
      (front ++ [x]).get? front.length = some x := by
    intro x
    rw [List.get?_eq_getElem?, List.getElem?_append_right (le_refl _)]
    simp
  have hlastget : s.pages.get? (s.pages.length - 1) = some lastnode := by
    rw [hsplit, show (front ++ [lastnode]).length - 1 = front.length by simp]
    exact hget_front lastnode
  have hlastid : s.last_page_id.toNat = s.pages.length - 1 := by
    rw [hWF.last, Int.toNat_natCast]
  have hlastne : ¬ s.last_page_id = -1 := by
    rw [hWF.last]
    omega
  have hnodeget : s.pages.get? s.last_page_id.toNat = some lastnode := by
    rw [hlastid]
    exact hlastget
  have hsetlast : ∀ nd : HeapNode,
      s.pages.set s.last_page_id.toNat nd = front ++ [nd] := by
    intro nd
    rw [hlastid, hsplit,
      show (front ++ [lastnode]).length - 1 = front.length by simp,
      set_last_append]
  have hchain_front : ∀ i, i + 1 < s.pages.length →
      ((front.get? i).getD HeapNode.empty).next_page_id =
        ((i + 1 : Nat) : Int) := by
    intro i hi
    have hif : i < front.length := by
      rw [hsplit] at hi
      simp at hi
      omega
    have h1 := hWF.chain i hi
    rw [hsplit, List.get?_eq_getElem?,
      List.getElem?_append_left hif] at h1
    rw [List.get?_eq_getElem?]
    exact h1
  by_cases hcond : 8 + 9 * (lastnode.slots.length + 1) +
      (lastnode.usedTupleBytes + d.length) ≤ 4096
  · -- the last page admits the tuple
    have hins : lastnode.insertTuple d m =
        some ({ lastnode with slots := lastnode.slots ++ [(m, d)] },
          lastnode.slots.length) := by
      unfold HeapNode.insertTuple
      rw [if_pos hcond]
    have hres2 : (s.insert d m).2 =
        { s with pages :=
            front ++ [{ lastnode with
              slots := lastnode.slots ++ [(m, d)] }] } := by
      simp only [HeapList.insert, hnodeget, hins]
      rw [if_neg hlastne, hsetlast]
    rw [hres2]
    refine ⟨⟨by simp, hWF.first, ?_, ?_, ?_⟩, ?_⟩
    · show s.last_page_id = _
      rw [hWF.last, hsplit]
      simp
    · intro i hi
      have hi2 : i + 1 < s.pages.length := by
        rw [hsplit]
        simp only [List.length_append, List.length_cons] at hi ⊢
        simpa using hi
      have hif : i < front.length := by
        rw [hsplit] at hi2
        simp at hi2
        omega
      have h1 := hchain_front i hi2
      show (((front ++ _).get? i).getD HeapNode.empty).next_page_id = _
      rw [List.get?_eq_getElem?, List.getElem?_append_left hif]
      rw [List.get?_eq_getElem?] at h1
      exact h1
    · intro q hq
      rcases List.mem_append.mp hq with hqf | hqe
      · exact hWF.pagesNe q (by
          rw [hsplit]
          exact List.mem_append_left _ hqf)
      · have hq2 : q = { lastnode with
            slots := lastnode.slots ++ [(m, d)] } := by
          simpa using hqe
        rw [hq2]
        simp
    · show ((front ++ _).map HeapNode.slots).flatten = _
      unfold allSlots
      rw [hsplit]
      simp [List.append_assoc]
  · -- the last page rejects the tuple: new page, link, insert there
    have hins : lastnode.insertTuple d m = none := by
      unfold HeapNode.insertTuple
      rw [if_neg hcond]
    have hlastslotsne : lastnode.slots ≠ [] :=
      hWF.pagesNe lastnode (by
        rw [hsplit]
        exact List.mem_append_right _ (by simp))
    have hlen_ne : ¬ lastnode.slots.length = 0 :=
      fun h => hlastslotsne (List.length_eq_zero.mp h)
    have hfresh : HeapNode.empty.insertTuple d m =
        some (({ next_page_id := 0, slots := [(m, d)] } : HeapNode), 0) := by
      unfold HeapNode.insertTuple
      rw [if_pos (by
        simp [HeapNode.empty, HeapNode.usedTupleBytes]
        omega)]
      rfl
    have hres2 : (s.insert d m).2 =
        { pages := (front ++ [{ lastnode with next_page_id := (s.pages.length : Int) }]) ++
            [({ next_page_id := 0, slots := [(m, d)] } : HeapNode)],
          first_page_id := s.first_page_id,
          last_page_id := (s.pages.length : Int) } := by
      simp only [HeapList.insert, hnodeget, hins, hfresh]
      rw [if_neg hlastne, if_neg hlen_ne, hsetlast,
        show ((s.pages.length : Int)).toNat = s.pages.length from
          Int.toNat_natCast _]
      have hsetnew : ((front ++ [({ next_page_id := ((s.pages.length : Nat) : Int), slots := lastnode.slots } : HeapNode)]) ++ [HeapNode.empty]).set s.pages.length ({ next_page_id := 0, slots := [(m, d)] } : HeapNode) = (front ++ [({ next_page_id := ((s.pages.length : Nat) : Int), slots := lastnode.slots } : HeapNode)]) ++ [({ next_page_id := 0, slots := [(m, d)] } : HeapNode)] := by
        apply set_last_append'
        simp [hsplit]
      rw [hsetnew]
    rw [hres2]
    have hlennew : ((front ++
        [{ lastnode with next_page_id := (s.pages.length : Int) }]) ++
        [({ next_page_id := 0, slots := [(m, d)] } : HeapNode)]).length =
        s.pages.length + 1 := by
      rw [hsplit]
      simp
    refine ⟨⟨by simp, hWF.first, ?_, ?_, ?_⟩, ?_⟩
    · show (s.pages.length : Int) = _
      rw [hlennew]
      simp
    · intro i hi
      rw [hlennew] at hi
      by_cases hif : i < front.length
      · have hi2 : i + 1 < s.pages.length := by
          rw [hsplit]
          simp only [List.length_append, List.length_cons]
          omega
        have h1 := hchain_front i hi2
        show ((((front ++ _) ++ _).get? i).getD
          HeapNode.empty).next_page_id = _
        rw [List.get?_eq_getElem?,
          List.getElem?_append_left (by simp; omega),
          List.getElem?_append_left hif]
        rw [List.get?_eq_getElem?] at h1
        exact h1
      · have hsl : s.pages.length = front.length + 1 := by
          rw [hsplit]
          simp
        have hieq : i = front.length := by omega
        show ((((front ++ _) ++ _).get? i).getD
          HeapNode.empty).next_page_id = _
        rw [hieq, List.get?_eq_getElem?,
          List.getElem?_append_left (by simp),
          ← List.get?_eq_getElem?, hget_front]
        show (s.pages.length : Int) = ((front.length + 1 : Nat) : Int)
        rw [hsplit]
        simp
    · intro q hq
      rcases List.mem_append.mp hq with hq1 | hq2
      · rcases List.mem_append.mp hq1 with hqf | hqm
        · exact hWF.pagesNe q (by
            rw [hsplit]
            exact List.mem_append_left _ hqf)
        · have hq3 : q = { lastnode with next_page_id := (s.pages.length : Int) } := by
            simpa using hqm
          rw [hq3]
          exact hlastslotsne
      · have hq3 : q = { next_page_id := 0, slots := [(m, d)] } := by
          simpa using hq2
        rw [hq3]
        simp
    · unfold allSlots
      rw [hsplit]
      simp [List.append_assoc]

theorem insertAll_wf (ts : List (List Nat × TupleMeta)) (hne : ts ≠ [])
    (hfit : ∀ t ∈ ts, 17 + t.1.length ≤ 4096) :
    HeapWF (insertAll ts) ∧
      allSlots (insertAll ts) = ts.map fun t => (t.2, t.1) := by
  have haux : ∀ (rest : List (List Nat × TupleMeta)) (s : HeapList),
      HeapWF s → (∀ t ∈ rest, 17 + t.1.length ≤ 4096) →
      HeapWF (rest.foldl (fun acc t => (acc.insert t.1 t.2).2) s) ∧
        allSlots (rest.foldl (fun acc t => (acc.insert t.1 t.2).2) s) =
          allSlots s ++ rest.map fun t => (t.2, t.1) := by
    intro rest
    induction rest with
    | nil =>
      intro s hs _
      exact ⟨hs, by simp⟩
    | cons t rest ih =>
      intro s hs hf
      rw [List.foldl_cons]
      obtain ⟨h1, h2⟩ := insert_preserves s hs t.1 t.2
        (hf t (List.mem_cons_self t rest))
      obtain ⟨h3, h4⟩ := ih (s.insert t.1 t.2).2 h1
        (fun q hq => hf q (List.mem_cons_of_mem t hq))
      refine ⟨h3, ?_⟩
      rw [h4, h2]
      simp
  match ts, hne with
  | t0 :: rest, _ =>
    have hf0 : 17 + t0.1.length ≤ 4096 :=
      hfit t0 (List.mem_cons_self t0 rest)
    have hf1 : HeapNode.empty.insertTuple t0.1 t0.2 =
        some (({ next_page_id := 0, slots := [(t0.2, t0.1)] } : HeapNode),
          0) := by
      unfold HeapNode.insertTuple
      rw [if_pos (by
        simp [HeapNode.empty, HeapNode.usedTupleBytes]
        omega)]
      rfl
    have hfirst : (HeapList.default.insert t0.1 t0.2).2 =
        { pages := [{ next_page_id := 0, slots := [(t0.2, t0.1)] }],
          first_page_id := 0, last_page_id := 0 } := by
      simp only [HeapList.insert, HeapList.default, hf1]
      rfl
    have hwf1 : HeapWF (HeapList.default.insert t0.1 t0.2).2 := by
      rw [hfirst]
      refine ⟨by simp, rfl, by simp, ?_, ?_⟩
      · intro i hi
        simp at hi
      · intro q hq
        simp at hq
        rw [hq]
        simp
    have hall1 : allSlots (HeapList.default.insert t0.1 t0.2).2 =
        [(t0.2, t0.1)] := by
      rw [hfirst]
      unfold allSlots
      simp
    obtain ⟨h5, h6⟩ := haux rest (HeapList.default.insert t0.1 t0.2).2 hwf1
      (fun q hq => hfit q (List.mem_cons_of_mem t0 hq))
    refine ⟨h5, ?_⟩
    unfold insertAll
    rw [List.foldl_cons, h6, hall1]
    simp

theorem slotsItems_proj (p : Nat) :
    ∀ (sl : List (TupleMeta × List Nat)) (k : Nat),
      (slotsItems p k sl).map (fun x => (x.1, x.2.data)) = sl := by
  intro sl
  induction sl with
  | nil => intro k; rfl
  | cons a rest ih =>
    intro k
    show (a.1, a.2) :: (slotsItems p (k + 1) rest).map
      (fun x => (x.1, x.2.data)) = a :: rest
    rw [ih (k + 1)]

theorem pagesItems_proj :
    ∀ (ps : List HeapNode) (base : Nat),
      (pagesItems ps base).map (fun x => (x.1, x.2.data)) =
        (ps.map HeapNode.slots).flatten := by
  intro ps
  induction ps with
  | nil => intro base; rfl
  | cons nd rest ih =>
    intro base
    show (slotsItems base 0 nd.slots ++ pagesItems rest (base + 1)).map
      (fun x => (x.1, x.2.data)) = nd.slots ++ (rest.map _).flatten
    rw [List.map_append, slotsItems_proj, ih]

theorem itemsFrom_zero (s : HeapList) (hne : s.pages ≠ []) :
    itemsFrom s 0 0 = pagesItems s.pages 0 := by
  match hp : s.pages, hne with
  | nd :: rest, _ =>
    unfold itemsFrom
    rw [hp]
    rfl

theorem iter_wf (s : HeapList) (hWF : HeapWF s) (nd : HeapNode)
    (hnd : s.pages.get? (s.pages.length - 1) = some nd) :
    s.iter = some ⟨⟨0, 0⟩, endCursor s⟩ := by
  unfold HeapList.iter
  rw [hWF.last, heapFetch_at s (s.pages.length - 1) nd hnd]
  unfold endCursor
  rw [hWF.first, hnd]
  rfl

/-- C6: for every heap list built by a non-empty sequence of successful
inserts (each tuple fits a fresh page), `iter` records the starting cursor
`(first_page_id, 0)` and the end cursor `(last page id, its slot count)`;
driving `Iter::next` yields exactly the stored `(meta, tuple)` items —
whose `(meta, data)` projections are the inserted pairs in insertion
order, reached by walking `next_page_id` from the first page — the final
cursor is the recorded end cursor, and the iterator returns `None`
exactly there. -/
theorem heap_iter_insertion_order (ts : List (List Nat × TupleMeta))
    (hne : ts ≠ []) (hfit : ∀ t ∈ ts, 17 + t.1.length ≤ 4096) :
    (insertAll ts).iter = some ⟨⟨0, 0⟩, endCursor (insertAll ts)⟩ ∧
      ((insertAll ts).iterRun
          ((pagesItems (insertAll ts).pages 0).length + 1)
          ⟨⟨0, 0⟩, endCursor (insertAll ts)⟩).1 =
        pagesItems (insertAll ts).pages 0 ∧
      ((insertAll ts).iterRun
          ((pagesItems (insertAll ts).pages 0).length + 1)
          ⟨⟨0, 0⟩, endCursor (insertAll ts)⟩).2 =
        ⟨endCursor (insertAll ts), endCursor (insertAll ts)⟩ ∧
      (insertAll ts).iterNext
          ⟨endCursor (insertAll ts), endCursor (insertAll ts)⟩ =
        (.stop, ⟨endCursor (insertAll ts), endCursor (insertAll ts)⟩) ∧
      (pagesItems (insertAll ts).pages 0).map (fun x => (x.1, x.2.data)) =
        ts.map fun t => (t.2, t.1) := by
  obtain ⟨hwf, hall⟩ := insertAll_wf ts hne hfit
  have hlen0 : 0 < (insertAll ts).pages.length :=
    List.length_pos.mpr hwf.ne
  obtain ⟨nd0, hnd0⟩ : ∃ nd, (insertAll ts).pages.get? 0 = some nd :=
    ⟨_, List.get?_eq_get hlen0⟩
  obtain ⟨ndl, hndl⟩ : ∃ nd,
      (insertAll ts).pages.get? ((insertAll ts).pages.length - 1) =
        some nd := ⟨_, List.get?_eq_get (by omega)⟩
  have hiter := iter_wf (insertAll ts) hwf ndl hndl
  have hItems0 := itemsFrom_zero (insertAll ts) hwf.ne
  have hkp0 : (0 : Nat) = nd0.slots.length →
      0 = (insertAll ts).pages.length - 1 := by
    intro h0
    exact absurd (List.length_eq_zero.mp h0.symm)
      (hwf.pagesNe nd0 (List.get?_mem hnd0))
  have hrun := iterRun_spec (insertAll ts) hwf
    ((pagesItems (insertAll ts).pages 0).length + 1) 0 0 hlen0 nd0 hnd0
    (Nat.zero_le _) hkp0 (by rw [hItems0]; omega)
  rw [show (((0 : Nat) : Int)) = (0 : Int) from rfl] at hrun
  refine ⟨hiter, ?_, ?_, ?_, ?_⟩
  · rw [hrun]
    exact hItems0
  · rw [hrun]
  · unfold HeapList.iterNext
    rw [if_pos rfl]
  · rw [pagesItems_proj]
    exact hall

/-- Witness for C6: two inserts, a 2-byte tuple then a 1-byte tuple. -/
theorem heap_iter_insertion_order_witness :
    (insertAll [([1, 2], ⟨false⟩), ([3], ⟨true⟩)]).iter =
        some ⟨⟨0, 0⟩,
          endCursor (insertAll [([1, 2], ⟨false⟩), ([3], ⟨true⟩)])⟩ ∧
      ((insertAll [([1, 2], ⟨false⟩), ([3], ⟨true⟩)]).iterRun
          ((pagesItems (insertAll [([1, 2], ⟨false⟩),
            ([3], ⟨true⟩)]).pages 0).length + 1)
          ⟨⟨0, 0⟩,
            endCursor (insertAll [([1, 2], ⟨false⟩), ([3], ⟨true⟩)])⟩).1 =
        pagesItems (insertAll [([1, 2], ⟨false⟩), ([3], ⟨true⟩)]).pages 0 ∧
      ((insertAll [([1, 2], ⟨false⟩), ([3], ⟨true⟩)]).iterRun
          ((pagesItems (insertAll [([1, 2], ⟨false⟩),
            ([3], ⟨true⟩)]).pages 0).length + 1)
          ⟨⟨0, 0⟩,
            endCursor (insertAll [([1, 2], ⟨false⟩), ([3], ⟨true⟩)])⟩).2 =
        ⟨endCursor (insertAll [([1, 2], ⟨false⟩), ([3], ⟨true⟩)]),
          endCursor (insertAll [([1, 2], ⟨false⟩), ([3], ⟨true⟩)])⟩ ∧
      (insertAll [([1, 2], ⟨false⟩), ([3], ⟨true⟩)]).iterNext
          ⟨endCursor (insertAll [([1, 2], ⟨false⟩), ([3], ⟨true⟩)]),
            endCursor (insertAll [([1, 2], ⟨false⟩), ([3], ⟨true⟩)])⟩ =
        (.stop,
          ⟨endCursor (insertAll [([1, 2], ⟨false⟩), ([3], ⟨true⟩)]),
            endCursor (insertAll [([1, 2], ⟨false⟩), ([3], ⟨true⟩)])⟩) ∧
      (pagesItems (insertAll [([1, 2], ⟨false⟩),
          ([3], ⟨true⟩)]).pages 0).map (fun x => (x.1, x.2.data)) =
        [([1, 2], (⟨false⟩ : TupleMeta)),
          ([3], ⟨true⟩)].map fun t => (t.2, t.1) :=
  heap_iter_insertion_order [([1, 2], ⟨false⟩), ([3], ⟨true⟩)]
    (by decide) (by decide)

end DbStorage
